import Mathlib

/-!
Verification of the HDBSCAN* algorithmic engine
(`src/HDBSCAN-CPP/HdbscanStar/hdbscanAlgorithm.cpp`).

Shallow embedding conventions:
* C++ `double` values are modelled as `ℚ`; the constant
  `std::numeric_limits<double>::max()` is modelled by `dblMax`
  (the exact value of `DBL_MAX`, `(2^53 - 1) * 2^971`).
* `std::vector` parameters are modelled as `List`; since every container
  parameter of the source functions is passed **by value**, a source function
  that mutates such a parameter is embedded as a function returning the final
  state of its local copy, and a separate `...Caller` definition records the
  call-site semantics (the caller's object is unchanged by the call).
* Undefined behaviour (out-of-bounds writes, dereferencing a past-the-end
  iterator, control reaching the end of a non-void function) is modelled by
  `Option`/explicitly documented placeholder values.
* The headers `cluster.hpp`, `outlierScore.hpp`, `hdbscanConstraint.hpp` and
  `bitSet.hpp` are not part of the sources; the corresponding data types are
  modelled from the specification (see the individual doc comments).
-/

/-- The exact value of `DBL_MAX` (`std::numeric_limits<double>::max()`),
the largest finite IEEE-754 binary64 value `(2^53 − 1) · 2^971`, as a
rational (written as an integer literal so that it evaluates by kernel
reduction). -/
def dblMax : ℚ := 179769313486231570814527423731704356798070567525844996598917476803157260780028538760589558632766878171540458953514382464234321326889464182768467546703537516986049910576551282076245490090389328944075868508455133942304583236903222948165808559332123348274797826204144723168738177180919299881250404026184124858368

/-- Modelled from the spec: `hdbscanConstraint.hpp` is not under `src/`.
A constraint type is either must-link or cannot-link (spec section 3,
"Constraint: an ordered pair of point indices plus a type"). -/
inductive ConstraintType where
  | mustLink
  | cannotLink
deriving DecidableEq, Repr

/-- Modelled from the spec: `hdbscanConstraint.hpp` is not under `src/`.
A constraint is an ordered pair of point indices plus a type (spec section 3).
`getPointA`/`getPointB`/`getConstraintType` of the source are the fields. -/
structure HdbscanConstraint where
  pointA : Nat
  pointB : Nat
  type : ConstraintType
deriving DecidableEq, Repr

/-- Modelled from the spec: `cluster.hpp` is not under `src/`.
A cluster record with the fields the spec describes (section 3, "Cluster"):
label, a weak parent back-reference (stored as the parent's label, following
the spec's arena advice in section 9), birth/death levels, stability
(`none` models the IEEE positive-infinity sentinel of the spec), the
propagated values, the constraint counters, the transient virtual child
cluster point set and the `hasChildren` flag. -/
structure Cluster where
  label : Int
  parent : Option Int
  birthLevel : ℚ
  deathLevel : ℚ
  stability : Option ℚ
  propagatedLowestChildDeathLevel : ℚ
  numConstraintsSatisfied : Nat
  virtualChildConstraintsSatisfied : Nat
  virtualChildCluster : List Nat
  hasChildren : Bool
  numPoints : Nat
deriving DecidableEq, Repr

instance : Inhabited Cluster :=
  ⟨{ label := 0, parent := none, birthLevel := 0, deathLevel := 0,
     stability := some 0, propagatedLowestChildDeathLevel := 0,
     numConstraintsSatisfied := 0, virtualChildConstraintsSatisfied := 0,
     virtualChildCluster := [], hasChildren := false, numPoints := 0 }⟩

/-- Modelled from the spec: `cluster.hpp` is not under `src/`.
`detachPoints(numPoints, edgeWeight)` tells a cluster it has lost
`numPoints` points at `edgeWeight`; this feeds the stability accumulator
`Σ pointsRemoved × (1/deathEdgeWeight − 1/birthEdgeWeight)` and the
death level, with stability set to the infinity sentinel (`none`) when the
birth level is `0` (spec sections 3 and 4.3). -/
def Cluster.detachPoints (c : Cluster) (points : Nat) (edgeWeight : ℚ) : Cluster :=
  { c with
    numPoints := c.numPoints - points
    deathLevel := edgeWeight
    stability :=
      if c.birthLevel = 0 then none
      else c.stability.map (fun s => s + points * (1 / edgeWeight - 1 / c.birthLevel)) }

/-- Modelled from the spec: `cluster.hpp` is not under `src/`.
Registers a point set as the cluster's virtual child cluster
(spec section 4.3, step 4). -/
def Cluster.addPointsToVirtualChildCluster (c : Cluster) (points : List Nat) : Cluster :=
  { c with virtualChildCluster := c.virtualChildCluster ++ points }

/-- Modelled from the spec: `cluster.hpp` is not under `src/`.
Membership test of a point in the cluster's virtual child cluster
(spec section 4.5). -/
def Cluster.virtualChildClusterConstraintsPoint (c : Cluster) (p : Nat) : Bool :=
  p ∈ c.virtualChildCluster

/-- Modelled from the spec: `cluster.hpp` is not under `src/`.
Adds `n` to the satisfied-constraint counter of the cluster (spec 4.5). -/
def Cluster.addConstraintsSatisfied (c : Cluster) (n : Nat) : Cluster :=
  { c with numConstraintsSatisfied := c.numConstraintsSatisfied + n }

/-- Modelled from the spec: `cluster.hpp` is not under `src/`.
The constructor `cluster(label, parent, birthLevel, numPoints)` used at the
end of `createNewCluster` (spec section 4.3, step 3: a new node whose parent
is the given parent, birth level the given edge weight, initial size the
number of points). -/
def Cluster.mkNew (label : Int) (parentCluster : Cluster) (birthLevel : ℚ)
    (numPoints : Nat) : Cluster :=
  { label := label, parent := some parentCluster.label, birthLevel := birthLevel,
    deathLevel := 0, stability := some 0, propagatedLowestChildDeathLevel := 0,
    numConstraintsSatisfied := 0, virtualChildConstraintsSatisfied := 0,
    virtualChildCluster := [], hasChildren := false, numPoints := numPoints }

/-- The final state of the local variables of `createNewCluster`
(`hdbscanAlgorithm.cpp` lines 248-268).  All three container/object
parameters of the source function are declared by value
(`std::set<int> points`, `std::vector<int> clusterLabels`,
`cluster parentCluster`), so the function body operates on copies. -/
structure CreateNewClusterResult where
  labels : List Int
  parent : Cluster
  newCluster : Option Cluster
deriving Repr

/-- Embedding of the body of `createNewCluster`
(`hdbscanAlgorithm.cpp` lines 248-268), acting on the function's local
copies of its by-value parameters: every point of `points` is assigned
`clusterLabel` in the (local) label array, the (local) parent is told it
lost `points.size()` points at `edgeWeight`, and then either a new cluster
is returned (`clusterLabel ≠ 0`) or the points are registered as the
parent's virtual child cluster.  In the latter branch control reaches the
end of the non-void function without a `return` statement (undefined
behaviour in C++); the missing return value is modelled as `none`,
matching the documented intent ("The new Cluster, or null if the
clusterId was 0"). -/
def createNewCluster (points : List Nat) (clusterLabels : List Int)
    (parentCluster : Cluster) (clusterLabel : Int) (edgeWeight : ℚ) :
    CreateNewClusterResult :=
  let labels := points.foldl (fun ls p => ls.set p clusterLabel) clusterLabels
  let parent := parentCluster.detachPoints points.length edgeWeight
  if clusterLabel ≠ 0 then
    { labels := labels, parent := parent,
      newCluster := some (Cluster.mkNew clusterLabel parent edgeWeight points.length) }
  else
    { labels := labels, parent := parent.addPointsToVirtualChildCluster points,
      newCluster := none }

/-- C++ call-site semantics of `createNewCluster` for the label array:
`clusterLabels` is passed by value (`std::vector<int> clusterLabels`,
line 250), so the caller's vector is unchanged by the call. -/
def createNewClusterCallerLabels (points : List Nat) (clusterLabels : List Int)
    (parentCluster : Cluster) (clusterLabel : Int) (edgeWeight : ℚ) : List Int :=
  clusterLabels

/-- C++ call-site semantics of `createNewCluster` for the parent cluster:
`parentCluster` is passed by value (`cluster parentCluster`, line 251), so
the caller's cluster object is unchanged by the call. -/
def createNewClusterCallerParent (points : List Nat) (clusterLabels : List Int)
    (parentCluster : Cluster) (clusterLabel : Int) (edgeWeight : ℚ) : Cluster :=
  parentCluster

/-- The examination list of `propagateTree` (`hdbscanAlgorithm.cpp`
lines 161-171): every leaf cluster (`!cluster.HasChildren`) is inserted
into the `std::map` keyed by its label with erase-then-insert
(insert-or-replace) semantics. -/
def buildExaminationList (clusters : List Cluster) : List (Int × Cluster) :=
  clusters.foldl
    (fun m c =>
      if !c.hasChildren then (m.filter (fun kv => kv.1 ≠ c.label)) ++ [(c.label, c)]
      else m)
    []

/-- Embedding of `propagateTree` (`hdbscanAlgorithm.cpp` lines 155-200).
The examination map is seeded with the leaf clusters; if it is empty the
`while (clustersToExamine.size())` loop never runs and `false` is returned.
Otherwise the first loop iteration executes
`std::map<int, cluster>::iterator currentKeyValue = clustersToExamine.end();
cluster currentCluster = currentKeyValue->second;` (lines 176-177), which
dereferences the past-the-end iterator of the map — undefined behaviour,
with no defined value — modelled as `none`. -/
def propagateTree (clusters : List Cluster) : Option Bool :=
  let clustersToExamine := buildExaminationList clusters
  if clustersToExamine.isEmpty then some false else none

/-- The element-wise counter update `clusters[label].addConstraintsSatisfied(n)`
on the function-local copy of the cluster vector
(`hdbscanAlgorithm.cpp` lines 303, 308, 310). -/
def addConstraintsSatisfiedAt (clusters : List Cluster) (label : Int) (n : Nat) :
    List Cluster :=
  clusters.set label.toNat ((clusters.getD label.toNat default).addConstraintsSatisfied n)

/-- The `parents` vector of `calculateNumConstraintsSatisfied`
(`hdbscanAlgorithm.cpp` lines 286-293): for each new cluster label, the
parent of `clusters[label]` is dereferenced and a copy is appended if not
already present (`operator==` on clusters compares the records). -/
def collectParents (newClusterLabels : List Int) (clusters : List Cluster) :
    List Cluster :=
  newClusterLabels.foldl
    (fun parents label =>
      match (clusters.getD label.toNat default).parent with
      | none => parents
      | some parentLabel =>
          let parent := clusters.getD parentLabel.toNat default
          if parent ∈ parents then parents else parents ++ [parent])
    []

/-- Processing of a single constraint in the loop of
`calculateNumConstraintsSatisfied` (`hdbscanAlgorithm.cpp` lines 295-334),
acting on the function-local copy of the cluster vector:
* must-link with equal labels: `clusters[labelA]` is credited 2 when
  `labelA` is in the new-label set (lines 300-304);
* cannot-link with different labels or a noise endpoint:
  `clusters[labelA]` is credited 1 when `labelA ≠ 0` and `labelA` is in the
  new-label set (lines 307-308), and `clusters[labelB]` is credited 1 when
  `labelB ≠ 0` and — as literally written at line 309 — **`labelA`** is in
  the new-label set;
* the noise-endpoint branches (lines 311-332) iterate over `parents` with a
  by-value loop variable (`for (cluster parent : parents)`), so their calls
  to `addVirtualChildConstraintsSatisfied` mutate a loop-local copy that is
  discarded at the end of each iteration: they have no effect on any state
  that survives the loop, and none on the cluster vector. -/
def applyConstraint (newClusterLabels : List Int) (clusterLabels : List Int)
    (clusters : List Cluster) (constraint : HdbscanConstraint) : List Cluster :=
  let labelA := clusterLabels.getD constraint.pointA 0
  let labelB := clusterLabels.getD constraint.pointB 0
  if constraint.type = ConstraintType.mustLink ∧ labelA = labelB then
    if labelA ∈ newClusterLabels then addConstraintsSatisfiedAt clusters labelA 2
    else clusters
  else if constraint.type = ConstraintType.cannotLink ∧ (labelA ≠ labelB ∨ labelA = 0) then
    let cs1 :=
      if labelA ≠ 0 ∧ labelA ∈ newClusterLabels then
        addConstraintsSatisfiedAt clusters labelA 1
      else clusters
    let cs2 :=
      if labelB ≠ 0 ∧ labelA ∈ newClusterLabels then
        addConstraintsSatisfiedAt cs1 labelB 1
      else cs1
    cs2
  else clusters

/-- Embedding of `calculateNumConstraintsSatisfied`
(`hdbscanAlgorithm.cpp` lines 277-340), returning the final state of the
function-local copy of the cluster vector (the source function is `void`
and takes every container by value).  The `parents` vector (lines 286-293,
see `collectParents`) only feeds the noise-endpoint branches and the final
`releaseVirtualChildCluster` loop, both of which mutate by-value loop
copies and therefore change no surviving state. -/
def calculateNumConstraintsSatisfied (newClusterLabels : List Int)
    (clusters : List Cluster) (constraints : List HdbscanConstraint)
    (clusterLabels : List Int) : List Cluster :=
  if constraints.length = 0 then clusters
  else constraints.foldl (applyConstraint newClusterLabels clusterLabels) clusters

/-- C++ call-site semantics of `calculateNumConstraintsSatisfied`: the
function returns `void` and `clusters` is passed by value
(`std::vector<cluster> clusters`, line 279), so the caller's cluster
vector is unchanged by the call. -/
def calculateNumConstraintsSatisfiedCaller (newClusterLabels : List Int)
    (clusters : List Cluster) (constraints : List HdbscanConstraint)
    (clusterLabels : List Int) : List Cluster :=
  clusters

/-- Modelled from the spec: `outlierScore.hpp` is not under `src/`.
An outlier record is a (score, core distance, point index) triple
(spec sections 3 and 4.6). -/
structure OutlierScore where
  score : ℚ
  coreDistance : ℚ
  id : Nat
deriving DecidableEq, Repr

/-- Modelled from the spec: a default-constructed `outlierScore` is a
zero-valued record (spec section 9: "the first `numPoints` entries are left
as default-constructed zero-valued records"). -/
instance : Inhabited OutlierScore := ⟨{ score := 0, coreDistance := 0, id := 0 }⟩

/-- Modelled from the spec: `outlierScore.hpp` is not under `src/`.
The ordering used by `sort(outlierScores.begin(), outlierScores.end())`:
the result is "sorted in descending order by score (tie-break ... by core
distance, then index, for determinism)" (spec section 4.6), so a record
precedes another when its score is larger, with larger core distance and
then larger index breaking ties. -/
def osLe (a b : OutlierScore) : Prop :=
  b.score < a.score ∨
    (b.score = a.score ∧
      (b.coreDistance < a.coreDistance ∨
        (b.coreDistance = a.coreDistance ∧ b.id ≤ a.id)))

instance : DecidableRel osLe := fun a b => by
  unfold osLe; exact inferInstance

instance : IsTotal OutlierScore osLe where
  total a b := by
    unfold osLe
    rcases lt_trichotomy a.score b.score with h | h | h
    · exact Or.inr (Or.inl h)
    · rcases lt_trichotomy a.coreDistance b.coreDistance with h2 | h2 | h2
      · exact Or.inr (Or.inr ⟨h, Or.inl h2⟩)
      · rcases Nat.le_total b.id a.id with h3 | h3
        · exact Or.inl (Or.inr ⟨h.symm, Or.inr ⟨h2.symm, h3⟩⟩)
        · exact Or.inr (Or.inr ⟨h, Or.inr ⟨h2, h3⟩⟩)
      · exact Or.inl (Or.inr ⟨h.symm, Or.inl h2⟩)
    · exact Or.inl (Or.inl h)

instance : IsTrans OutlierScore osLe where
  trans a b c hab hbc := by
    unfold osLe at *
    rcases hab with h1 | ⟨h1, h1b⟩
    · rcases hbc with h2 | ⟨h2, h2b⟩
      · exact Or.inl (h2.trans h1)
      · exact Or.inl (lt_of_eq_of_lt h2 h1)
    · rcases hbc with h2 | ⟨h2, h2b⟩
      · exact Or.inl (lt_of_lt_of_eq h2 h1)
      · refine Or.inr ⟨h2.trans h1, ?_⟩
        rcases h1b with h3 | ⟨h3, h3b⟩
        · rcases h2b with h4 | ⟨h4, h4b⟩
          · exact Or.inl (h4.trans h3)
          · exact Or.inl (lt_of_eq_of_lt h4 h3)
        · rcases h2b with h4 | ⟨h4, h4b⟩
          · exact Or.inl (lt_of_lt_of_eq h4 h3)
          · exact Or.inr ⟨h4.trans h3, h4b.trans h3b⟩

/-- Embedding of `calculateOutlierScores`
(`hdbscanAlgorithm.cpp` lines 211-236).  The result vector is constructed
with `numPoints` default elements (`std::vector<outlierScore>
outlierScores(numPoints)`), then one record per point is appended with
`push_back`, doubling the length; finally the vector is sorted with the
`outlierScore` ordering (`List.insertionSort` models `std::sort`: a sorted
permutation of its input). -/
def calculateOutlierScores (clusters : List Cluster) (pointNoiseLevels : List ℚ)
    (pointLastClusters : List Nat) (coreDistances : List ℚ) : List OutlierScore :=
  let numPoints := pointNoiseLevels.length
  let outlierScores : List OutlierScore := List.replicate numPoints default
  let filled := (List.range numPoints).foldl
    (fun acc i =>
      let epsilonMax :=
        (clusters.getD (pointLastClusters.getD i 0) default).propagatedLowestChildDeathLevel
      let epsilon := pointNoiseLevels.getD i 0
      let score := if epsilon ≠ 0 then 1 - epsilonMax / epsilon else 0
      acc ++ [{ score := score, coreDistance := coreDistances.getD i 0, id := i }])
    outlierScores
  List.insertionSort osLe filled

/-- The inner `while` of `calculateCoreDistances`
(`hdbscanAlgorithm.cpp` lines 51-56): starting from `numNeighbors`, the
index is decremented while it is at least 1 and the current distance is
smaller than the buffer entry just below it. -/
def knnInsertPos (kNNDistances : List ℚ) (distance : ℚ) : Nat → Nat
  | 0 => 0
  | j + 1 => if distance < kNNDistances.getD j 0 then knnInsertPos kNNDistances distance j
             else j + 1

/-- The shift-and-insert step of `calculateCoreDistances`
(`hdbscanAlgorithm.cpp` lines 58-65): if the insertion position is inside
the buffer, entries above it are shifted up by one (the last entry falls
off) and the distance is written at the position; the net effect on the
length-`numNeighbors` buffer is inserting the distance at the position and
truncating back to `numNeighbors` entries. -/
def knnInsert (numNeighbors : Nat) (kNNDistances : List ℚ) (distance : ℚ) : List ℚ :=
  let neighborIndex := knnInsertPos kNNDistances distance numNeighbors
  if neighborIndex < numNeighbors then
    (kNNDistances.take neighborIndex ++ distance :: kNNDistances.drop neighborIndex).take
      numNeighbors
  else kNNDistances

/-- The per-point neighbor loop of `calculateCoreDistances`
(`hdbscanAlgorithm.cpp` lines 40-67): the sorted buffer of the
`numNeighbors` smallest distances seen so far, initialised to
`DBL_MAX` everywhere, updated for every neighbor other than the point
itself. -/
def corePointBuffer (distances : List (List ℚ)) (point : Nat) (numNeighbors : Nat) :
    List ℚ :=
  (List.range distances.length).foldl
    (fun kNNDistances neighbor =>
      if point = neighbor then kNNDistances
      else knnInsert numNeighbors kNNDistances ((distances.getD point []).getD neighbor 0))
    (List.replicate numNeighbors dblMax)

/-- Embedding of `calculateCoreDistances`
(`hdbscanAlgorithm.cpp` lines 24-71): for `k = 1` every core distance is
`0`; otherwise each point's core distance is the last entry
(`kNNDistances[numNeighbors - 1]`, index `k - 2`) of its buffer of the
`k - 1` smallest distances to other points. -/
def calculateCoreDistances (distances : List (List ℚ)) (k : Nat) : List ℚ :=
  if k = 1 then List.replicate distances.length 0
  else
    (List.range distances.length).map
      (fun point => (corePointBuffer distances point (k - 1)).getD (k - 2) 0)

/-- The mutual reachability distance computed at
`hdbscanAlgorithm.cpp` lines 103-109:
`max(max(distances[a][b], coreDistances[a]), coreDistances[b])`. -/
def mrd (d : Nat → Nat → ℚ) (cd : Nat → ℚ) (a b : Nat) : ℚ :=
  max (max (d a b) (cd a)) (cd b)

/-- The accumulator of the neighbor scan inside the MST loop
(`hdbscanAlgorithm.cpp` lines 95-123): the two per-point arrays together
with the running best distance and best point (`nearestMRDPoint == -1` is
modelled as `none`). -/
structure ScanAcc where
  nd : Nat → ℚ
  nbr : Nat → Nat
  bestDist : ℚ
  bestPoint : Option Nat

/-- One step of the neighbor scan (`hdbscanAlgorithm.cpp` lines 97-123):
skip the current point and attached points; otherwise compute the mutual
reachability distance, lower the recorded nearest distance/neighbor of the
scanned point if it improves, and take the scanned point as the selection
candidate whenever its recorded distance is at most the running best
(note `<=`: a later point displaces an earlier tie). -/
def mstScanStep (d : Nat → Nat → ℚ) (cd : Nat → ℚ) (attached : List Nat)
    (currentPoint : Nat) (acc : ScanAcc) (neighbor : Nat) : ScanAcc :=
  if neighbor = currentPoint then acc
  else if neighbor ∈ attached then acc
  else
    let m := mrd d cd currentPoint neighbor
    let nd' := if m < acc.nd neighbor then Function.update acc.nd neighbor m else acc.nd
    let nbr' :=
      if m < acc.nd neighbor then Function.update acc.nbr neighbor currentPoint
      else acc.nbr
    if nd' neighbor ≤ acc.bestDist then
      { nd := nd', nbr := nbr', bestDist := nd' neighbor, bestPoint := some neighbor }
    else
      { nd := nd', nbr := nbr', bestDist := acc.bestDist, bestPoint := acc.bestPoint }

/-- The full neighbor scan of one MST loop iteration
(`hdbscanAlgorithm.cpp` lines 95-123): fold `mstScanStep` over all point
indices, starting from best distance `DBL_MAX` and no best point. -/
def mstScan (d : Nat → Nat → ℚ) (cd : Nat → ℚ) (n : Nat) (attached : List Nat)
    (currentPoint : Nat) (nd : Nat → ℚ) (nbr : Nat → Nat) : ScanAcc :=
  (List.range n).foldl (mstScanStep d cd attached currentPoint)
    { nd := nd, nbr := nbr, bestDist := dblMax, bestPoint := none }

/-- The mutable state of the MST construction loop
(`hdbscanAlgorithm.cpp` lines 78-92): the attached points (in attachment
order, most recent first — this list models both the `bitSet` and the
attachment order), the current point, and the two per-point arrays. -/
structure MstState where
  attached : List Nat
  currentPoint : Nat
  nd : Nat → ℚ
  nbr : Nat → Nat

/-- The `while (numAttachedPoints < length)` loop of `constructMst`
(`hdbscanAlgorithm.cpp` lines 92-127), with the remaining number of
iterations (`length - numAttachedPoints`) as the recursion measure, which
decreases by exactly 1 each iteration since the selected point is always
unattached.  If the scan selects no point (`nearestMRDPoint == -1`) the
subsequent `attachedPoints.set(-1)` writes out of bounds (undefined
behaviour), modelled as `none`.  The second component of the result counts
the executed loop iterations. -/
def mstLoop (d : Nat → Nat → ℚ) (cd : Nat → ℚ) (n : Nat) :
    Nat → MstState → Option (MstState × Nat)
  | 0, s => some (s, 0)
  | r + 1, s =>
    let acc := mstScan d cd n s.attached s.currentPoint s.nd s.nbr
    match acc.bestPoint with
    | none => none
    | some p =>
        (mstLoop d cd n r
            { attached := p :: s.attached, currentPoint := p, nd := acc.nd,
              nbr := acc.nbr }).map
          (fun x => (x.1, x.2 + 1))

/-- Modelled from the spec: `undirectedGraph.hpp` is not under `src/`.
The MST result container (spec section 3, "Undirected graph (MST result)"):
edge `i` joins `verticesA[i]` and `verticesB[i]` with weight
`edgeWeights[i]`. -/
structure UndirectedGraph where
  numVertices : Nat
  verticesA : List Nat
  verticesB : List Nat
  edgeWeights : List ℚ
deriving Repr

/-- The distance-matrix lookup `distances[i][j]` as a total function
(all source accesses are in bounds under the hypotheses of the theorems). -/
def dOf (distances : List (List ℚ)) : Nat → Nat → ℚ :=
  fun i j => (distances.getD i []).getD j 0

/-- The core-distance lookup `coreDistances[i]` as a total function. -/
def cdOf (coreDistances : List ℚ) : Nat → ℚ :=
  fun i => coreDistances.getD i 0

/-- The initial loop state of `constructMst`
(`hdbscanAlgorithm.cpp` lines 78-90): the last point is attached and
current, every recorded nearest distance is `DBL_MAX`
(indices `0 .. length - 2` are initialised so at lines 83-86; the entry of
the root, index `length - 1`, is never read because the root is attached
throughout), and the neighbor array is zero-initialised. -/
def mstInitState (n : Nat) : MstState :=
  { attached := [n - 1], currentPoint := n - 1, nd := fun _ => dblMax, nbr := fun _ => 0 }

/-- Embedding of `constructMst` (`hdbscanAlgorithm.cpp` lines 72-146).
After the attachment loop, edge `i < length - 1` joins
`nearestMRDNeighbors[i]` to vertex `i` with weight
`nearestMRDDistances[i]`; if self edges are requested, `length` further
edges join each vertex to itself with weight equal to its own core
distance. -/
def constructMst (distances : List (List ℚ)) (coreDistances : List ℚ)
    (selfEdges : Bool) : Option UndirectedGraph :=
  let n := distances.length
  let d := dOf distances
  let cd := cdOf coreDistances
  (mstLoop d cd n (n - 1) (mstInitState n)).map
    (fun x =>
      { numVertices := n
        verticesA :=
          (List.range (n - 1)).map x.1.nbr ++ (if selfEdges then List.range n else [])
        verticesB := List.range (n - 1) ++ (if selfEdges then List.range n else [])
        edgeWeights :=
          (List.range (n - 1)).map x.1.nd ++
            (if selfEdges then (List.range n).map cd else []) })

/-- Adjacency via the first `k` edges of the graph. -/
def UndirectedGraph.AdjUpTo (g : UndirectedGraph) (k : Nat) (u v : Nat) : Prop :=
  ∃ i, i < k ∧
    ((g.verticesA.getD i 0 = u ∧ g.verticesB.getD i 0 = v) ∨
      (g.verticesA.getD i 0 = v ∧ g.verticesB.getD i 0 = u))

/-- A concrete non-noise cluster with label 1 (used in concrete scenarios). -/
def exCluster1 : Cluster := { (default : Cluster) with label := 1 }

/-- A concrete non-noise cluster with label 2 (used in concrete scenarios). -/
def exCluster2 : Cluster := { (default : Cluster) with label := 2 }

/-- A concrete parent cluster with 3 points and birth level 1
(used in concrete scenarios). -/
def exParent : Cluster := { (default : Cluster) with numPoints := 3, birthLevel := 1 }

/-- A concrete symmetric 3-point distance matrix in which all pairwise
distances are equal (used to exhibit MST tie-breaking). -/
def exTieMatrix : List (List ℚ) := [[0, 1, 1], [1, 0, 1], [1, 1, 0]]

/-- All-zero core distances for the 3-point tie scenario. -/
def exTieCore : List ℚ := [0, 0, 0]


/-- The per-point attachment record built by the MST loop: each attached
point (except the root, the last element) has its frozen nearest neighbor
among the points attached before it, with the recorded distance equal to
the mutual reachability distance of the pair. -/
inductive AttChain (d : Nat → Nat → ℚ) (cd : Nat → ℚ) (nbr : Nat → Nat)
    (nd : Nat → ℚ) : List Nat → Prop where
  | single (r : Nat) : AttChain d cd nbr nd [r]
  | cons (p : Nat) (rest : List Nat) (hmem : nbr p ∈ rest)
      (hw : nd p = mrd d cd (nbr p) p) (hrest : AttChain d cd nbr nd rest) :
      AttChain d cd nbr nd (p :: rest)

/-- What one full neighbor scan of the MST loop establishes, as a function
of the scan bound `m` (the fold runs over `List.range m`):
array entries of attached points, of the current point and beyond the
bound are untouched; recorded distances never increase; a scanned
unattached point is either untouched (because its recorded distance did
not exceed the offered mutual reachability distance) or lowered to the
offered distance with the current point as neighbor; and the selection
result is the **last** scanned unattached point attaining the minimal
recorded distance, or `none` exactly when no candidate was scanned. -/
structure ScanSpec (d : Nat → Nat → ℚ) (cd : Nat → ℚ) (attached : List Nat)
    (current : Nat) (nd₀ : Nat → ℚ) (nbr₀ : Nat → Nat) (m : Nat)
    (acc : ScanAcc) : Prop where
  unchanged : ∀ q, (m ≤ q ∨ q ∈ attached ∨ q = current) →
    acc.nd q = nd₀ q ∧ acc.nbr q = nbr₀ q
  nd_le : ∀ q, acc.nd q ≤ nd₀ q
  upd : ∀ q, q < m → q ∉ attached → q ≠ current →
    (acc.nd q = nd₀ q ∧ acc.nbr q = nbr₀ q ∧ nd₀ q ≤ mrd d cd current q) ∨
      (acc.nd q = mrd d cd current q ∧ acc.nbr q = current)
  none_spec : acc.bestPoint = none →
    acc.bestDist = dblMax ∧ ∀ q, q < m → q ∉ attached → q = current
  some_spec : ∀ p, acc.bestPoint = some p →
    p < m ∧ p ∉ attached ∧ p ≠ current ∧ acc.bestDist = acc.nd p
  min_spec : ∀ q, q < m → q ∉ attached → q ≠ current → acc.bestDist ≤ acc.nd q
  max_spec : ∀ q, q < m → q ∉ attached → q ≠ current → acc.nd q = acc.bestDist →
    ∃ p, acc.bestPoint = some p ∧ q ≤ p

/-- The basic invariant of the MST attachment loop: the current point
heads the attachment list, attached points are distinct indices below `n`,
and no recorded distance exceeds `DBL_MAX`. -/
structure LoopInv (n : Nat) (s : MstState) : Prop where
  head : s.attached.head? = some s.currentPoint
  nodup : s.attached.Nodup
  mem_lt : ∀ p ∈ s.attached, p < n
  nd_le : ∀ q, s.nd q ≤ dblMax

/-- The strong invariant of the MST attachment loop (maintained when every
mutual reachability distance is below `DBL_MAX`): additionally, the root
`n − 1` stays the last attached point, the attached points form an
`AttChain`, and every unattached point's record is either still the
`DBL_MAX` sentinel or a valid (neighbor, mutual-reachability-distance)
pair with an attached neighbor. -/
structure LoopInvStrong (d : Nat → Nat → ℚ) (cd : Nat → ℚ) (n : Nat)
    (s : MstState) : Prop where
  basic : LoopInv n s
  last : s.attached.getLast? = some (n - 1)
  chain : AttChain d cd s.nbr s.nd s.attached
  unatt : ∀ q, q < n → q ∉ s.attached →
    s.nd q = dblMax ∨ (s.nd q = mrd d cd (s.nbr q) q ∧ s.nbr q ∈ s.attached)

/-! ## General helper lemmas -/

theorem foldl_push {α β : Type} (f : α → β) :
    ∀ (l : List α) (init : List β),
      l.foldl (fun acc i => acc ++ [f i]) init = init ++ l.map f
  | [], init => by simp
  | a :: l, init => by
    simp [List.foldl_cons, foldl_push f l (init ++ [f a])]

theorem getD_set_self {α : Type} [Inhabited α] (l : List α) (i : Nat) (x : α)
    (h : i < l.length) : (l.set i x).getD i default = x := by
  simp [List.getD_eq_getElem?_getD, List.getElem?_set_self, h]

theorem getD_set_ne {α : Type} [Inhabited α] (l : List α) (i j : Nat) (x : α)
    (h : i ≠ j) : (l.set i x).getD j default = l.getD j default := by
  simp [List.getD_eq_getElem?_getD, List.getElem?_set_ne h]

/-! ## C1: createNewCluster and the caller's label array -/

/-- C1: the claim states that after a call to `createNewCluster` every point
of the set has its entry in the **caller's** label array equal to the new
label (mutation in place).  This is false: `clusterLabels` is passed by
value, so the writes land in a function-local copy (which does end up
holding the new label) while the caller's array is unchanged.  At the
concrete input `points = {0}`, `clusterLabels = [5]`, new label `7`, the
caller's array still holds `5 ≠ 7` after the call. -/
theorem createNewCluster_caller_labels_unchanged :
    createNewClusterCallerLabels [0] [5] default 7 1 = [5] ∧
      (createNewCluster [0] [5] default 7 1).labels = [7] ∧ (5 : Int) ≠ 7 := by
  refine ⟨rfl, ?_, by decide⟩
  decide

/-! ## C2: propagateTree visit count -/

/-- C2: the claim states that `propagateTree` pops and propagates every
cluster of the input exactly once.  On any input containing a leaf cluster
the examination map is nonempty, and the first loop iteration dereferences
the past-the-end iterator `clustersToExamine.end()` (undefined behaviour,
modelled as `none`): no well-defined sequence of pops exists at all.  Here
the input is a single leaf cluster, for which the claim would require
exactly one pop. -/
theorem propagateTree_undefined_on_leaf :
    propagateTree [default] = none ∧ (default : Cluster).hasChildren = false := by
  constructor
  · decide
  · rfl

/-! ## C6: must-link satisfaction is invisible to the caller -/

/-- C6: the claim states that for a single must-link constraint whose two
endpoints share a label that is one of the new cluster labels,
`calculateNumConstraintsSatisfied` increases that cluster's
satisfied-constraint counter by exactly 2 **as observable by the caller**.
The source function is `void` and takes the cluster vector by value, so the
caller observes no change at all: in the concrete scenario (points 0 and 1,
both labelled 1, new labels `{1}`, one must-link constraint) the
function-local copy of cluster 1 does receive counter 2, but the caller's
cluster 1 still has counter 0. -/
theorem mustLink_credit_not_observable :
    calculateNumConstraintsSatisfiedCaller [1] [default, exCluster1]
        [⟨0, 1, ConstraintType.mustLink⟩] [1, 1] = [default, exCluster1] ∧
      (([default, exCluster1].getD 1 default).numConstraintsSatisfied = 0) ∧
      ((calculateNumConstraintsSatisfied [1] [default, exCluster1]
            [⟨0, 1, ConstraintType.mustLink⟩] [1, 1]).getD 1
          default).numConstraintsSatisfied = 2 := by
  refine ⟨rfl, by decide, by decide⟩

/-! ## C8: createNewCluster with the noise label -/

/-- C8: the claim states that a call with new label 0 creates no cluster
node, registers the point set as the parent's virtual child cluster and
tells the parent it lost `|points|` points at the edge weight.  In the
source, those effects land on the function-local copy of the by-value
`parentCluster` (the copy's virtual child cluster, point count, death level
and stability are updated exactly so), the caller's parent is unchanged,
and control falls off the end of the non-void function (undefined
behaviour) instead of returning a defined "no cluster".  Concrete input:
`points = {0, 1}`, parent `exParent` (3 points, birth level 1), edge
weight 2. -/
theorem createNewCluster_noise_effects_lost :
    (createNewCluster [0, 1] [1, 1] exParent 0 2).newCluster = none ∧
      (createNewCluster [0, 1] [1, 1] exParent 0 2).parent.virtualChildCluster =
        [0, 1] ∧
      (createNewCluster [0, 1] [1, 1] exParent 0 2).parent.numPoints = 1 ∧
      (createNewCluster [0, 1] [1, 1] exParent 0 2).parent.deathLevel = 2 ∧
      (createNewCluster [0, 1] [1, 1] exParent 0 2).parent.stability = some (-1) ∧
      createNewClusterCallerParent [0, 1] [1, 1] exParent 0 2 = exParent ∧
      exParent.virtualChildCluster = [] := by
  refine ⟨by decide, by decide, by decide, by decide, ?_, rfl, rfl⟩
  simp only [createNewCluster, Cluster.detachPoints,
    Cluster.addPointsToVirtualChildCluster, exParent]
  norm_num
  rfl

/-! ## C3: calculateOutlierScores -/

/-- C3 counterexample: the claim states that `calculateOutlierScores`
returns a list whose length equals the number of points `N`.  For the
concrete one-point input (`N = 1`) the result has length 2, because the
result vector is pre-sized to `numPoints` default records and the real
records are appended with `push_back`. -/
theorem calculateOutlierScores_length_cex :
    (calculateOutlierScores [default] [0] [0] [0]).length = 2 ∧ (2 : Nat) ≠ 1 := by
  refine ⟨?_, by decide⟩
  simp only [calculateOutlierScores]
  rw [(List.perm_insertionSort osLe _).length_eq, foldl_push]
  simp

/-- C3 amended: `calculateOutlierScores` returns a list of length `2·N`
(the `N` real records are appended by `push_back` after `N`
default-constructed zero records), sorted in descending order by score;
for every point whose noise level is 0 the list contains that point's
record with score exactly 0, and for every point with nonzero noise level
it contains that point's record with score
`1 − parentPropagatedLowestChildDeathLevel / noiseLevel`. -/
theorem calculateOutlierScores_amended (clusters : List Cluster)
    (pointNoiseLevels : List ℚ) (pointLastClusters : List Nat)
    (coreDistances : List ℚ) :
    (calculateOutlierScores clusters pointNoiseLevels pointLastClusters
          coreDistances).length = 2 * pointNoiseLevels.length ∧
      List.Pairwise (fun a b : OutlierScore => b.score ≤ a.score)
        (calculateOutlierScores clusters pointNoiseLevels pointLastClusters
          coreDistances) ∧
      (∀ i, i < pointNoiseLevels.length → pointNoiseLevels.getD i 0 = 0 →
        ({ score := 0, coreDistance := coreDistances.getD i 0, id := i } :
            OutlierScore) ∈
          calculateOutlierScores clusters pointNoiseLevels pointLastClusters
            coreDistances) ∧
      ∀ i, i < pointNoiseLevels.length → pointNoiseLevels.getD i 0 ≠ 0 →
        ({ score := 1 -
              (clusters.getD (pointLastClusters.getD i 0)
                  default).propagatedLowestChildDeathLevel /
                pointNoiseLevels.getD i 0,
            coreDistance := coreDistances.getD i 0, id := i } :
            OutlierScore) ∈
          calculateOutlierScores clusters pointNoiseLevels pointLastClusters
            coreDistances := by
  simp only [calculateOutlierScores, foldl_push]
  refine ⟨?_, ?_, ?_, ?_⟩
  · rw [(List.perm_insertionSort osLe _).length_eq]
    simp [two_mul]
  · exact (List.sorted_insertionSort osLe _).imp
      (fun {x y} h => by
        rcases h with h | ⟨h, _⟩
        · exact h.le
        · exact le_of_eq h)
  · intro i hi heps
    rw [(List.perm_insertionSort osLe _).mem_iff]
    refine List.mem_append_right _ (List.mem_map.2 ⟨i, List.mem_range.2 hi, ?_⟩)
    rw [heps]
    simp
  · intro i hi heps
    rw [(List.perm_insertionSort osLe _).mem_iff]
    refine List.mem_append_right _ (List.mem_map.2 ⟨i, List.mem_range.2 hi, ?_⟩)
    rw [if_pos heps]

/-! ## C7: cannot-link crediting of endpoint B -/

theorem length_addConstraintsSatisfiedAt (clusters : List Cluster) (label : Int)
    (n : Nat) :
    (addConstraintsSatisfiedAt clusters label n).length = clusters.length := by
  simp [addConstraintsSatisfiedAt]

theorem numCS_addConstraintsSatisfiedAt_self (clusters : List Cluster) (label : Int)
    (n : Nat) (h : label.toNat < clusters.length) :
    ((addConstraintsSatisfiedAt clusters label n).getD label.toNat
        default).numConstraintsSatisfied =
      (clusters.getD label.toNat default).numConstraintsSatisfied + n := by
  simp only [addConstraintsSatisfiedAt]
  rw [getD_set_self _ _ _ h]
  rfl

theorem getD_addConstraintsSatisfiedAt_ne (clusters : List Cluster) (label : Int)
    (n : Nat) (j : Nat) (h : label.toNat ≠ j) :
    (addConstraintsSatisfiedAt clusters label n).getD j default =
      clusters.getD j default := by
  simp only [addConstraintsSatisfiedAt]
  rw [getD_set_ne _ _ _ _ h]

theorem calcNCS_singleton (newLabels : List Int) (clusters : List Cluster)
    (c : HdbscanConstraint) (clusterLabels : List Int) :
    calculateNumConstraintsSatisfied newLabels clusters [c] clusterLabels =
      applyConstraint newLabels clusterLabels clusters c := by
  simp [calculateNumConstraintsSatisfied]

theorem applyConstraint_cannotLink (newLabels clusterLabels : List Int)
    (clusters : List Cluster) (a b : Nat)
    (hA0 : clusterLabels.getD a 0 ≠ 0) (hB0 : clusterLabels.getD b 0 ≠ 0)
    (hAB : clusterLabels.getD a 0 ≠ clusterLabels.getD b 0) :
    applyConstraint newLabels clusterLabels clusters ⟨a, b, ConstraintType.cannotLink⟩ =
      if clusterLabels.getD a 0 ∈ newLabels then
        addConstraintsSatisfiedAt
          (addConstraintsSatisfiedAt clusters (clusterLabels.getD a 0) 1)
          (clusterLabels.getD b 0) 1
      else clusters := by
  unfold applyConstraint
  dsimp only
  rw [if_neg (fun h => ConstraintType.noConfusion h.1), if_pos ⟨rfl, Or.inl hAB⟩]
  by_cases hmem : clusterLabels.getD a 0 ∈ newLabels
  · rw [if_pos ⟨hB0, hmem⟩, if_pos ⟨hA0, hmem⟩, if_pos hmem]
  · rw [if_neg (fun h => hmem h.2), if_neg (fun h => hmem h.2), if_neg hmem]

/-- C7 counterexample: the claim states that for a cannot-link constraint
whose endpoints have different labels, an endpoint with (non-noise) label B
in the new-label set is credited 1 regardless of whether the other
endpoint's label A is in that set.  Concrete input: labels
`labelA = 1 ∉ {2}`, `labelB = 2 ∈ {2}`, both non-noise and different, one
cannot-link constraint — yet cluster 2's counter stays 0, because line 309
of the source tests `labelA`'s membership when crediting `labelB`'s
cluster. -/
theorem cannotLink_B_credit_cex :
    ((calculateNumConstraintsSatisfied [2] [default, exCluster1, exCluster2]
          [⟨0, 1, ConstraintType.cannotLink⟩] [1, 2]).getD 2
        default).numConstraintsSatisfied = 0 ∧
      (([1, 2] : List Int).getD 0 0 = 1 ∧ ([1, 2] : List Int).getD 1 0 = 2) ∧
      ((2 : Int) ∈ ([2] : List Int) ∧ (1 : Int) ∉ ([2] : List Int)) ∧
      ((1 : Int) ≠ 2 ∧ (1 : Int) ≠ 0 ∧ (2 : Int) ≠ 0) := by
  refine ⟨by decide, by decide, by decide, by decide⟩

/-- C7 amended: for a cannot-link constraint whose endpoints have
different non-noise labels, `calculateNumConstraintsSatisfied` (on its
local copy of the cluster vector) credits endpoint A's cluster 1 exactly
when `labelA` is in the new-label set, and credits endpoint B's cluster 1
under the **same** condition — the literal test at line 309 of the source
checks `labelA`'s membership, not `labelB`'s. -/
theorem cannotLink_credits_follow_labelA (newLabels clusterLabels : List Int)
    (clusters : List Cluster) (a b : Nat)
    (hA0 : clusterLabels.getD a 0 ≠ 0) (hB0 : clusterLabels.getD b 0 ≠ 0)
    (hAB : clusterLabels.getD a 0 ≠ clusterLabels.getD b 0)
    (hia : (clusterLabels.getD a 0).toNat < clusters.length)
    (hib : (clusterLabels.getD b 0).toNat < clusters.length)
    (hne : (clusterLabels.getD a 0).toNat ≠ (clusterLabels.getD b 0).toNat) :
    (((calculateNumConstraintsSatisfied newLabels clusters
            [⟨a, b, ConstraintType.cannotLink⟩] clusterLabels).getD
          (clusterLabels.getD a 0).toNat default).numConstraintsSatisfied =
        (clusters.getD (clusterLabels.getD a 0).toNat
            default).numConstraintsSatisfied +
          (if clusterLabels.getD a 0 ∈ newLabels then 1 else 0)) ∧
      (((calculateNumConstraintsSatisfied newLabels clusters
            [⟨a, b, ConstraintType.cannotLink⟩] clusterLabels).getD
          (clusterLabels.getD b 0).toNat default).numConstraintsSatisfied =
        (clusters.getD (clusterLabels.getD b 0).toNat
            default).numConstraintsSatisfied +
          (if clusterLabels.getD a 0 ∈ newLabels then 1 else 0)) := by
  rw [calcNCS_singleton, applyConstraint_cannotLink _ _ _ _ _ hA0 hB0 hAB]
  by_cases hmem : clusterLabels.getD a 0 ∈ newLabels
  · simp only [if_pos hmem]
    constructor
    · rw [getD_addConstraintsSatisfiedAt_ne _ _ _ _ (Ne.symm hne),
        numCS_addConstraintsSatisfiedAt_self _ _ _ hia]
    · rw [numCS_addConstraintsSatisfiedAt_self _ _ _
          (by rw [length_addConstraintsSatisfiedAt]; exact hib),
        getD_addConstraintsSatisfiedAt_ne _ _ _ _ hne]
  · simp only [if_neg hmem]
    refine ⟨?_, ?_⟩ <;> omega

/-- C7 amended witness: concrete scenario with `labelA = 1 ∈ {1}` and
`labelB = 2 ∉ {1}` — both clusters are credited 1, endpoint B's cluster
because `labelA` (not `labelB`) is in the new-label set. -/
theorem cannotLink_credits_follow_labelA_witness :
    (((calculateNumConstraintsSatisfied [1] [default, exCluster1, exCluster2]
            [⟨0, 1, ConstraintType.cannotLink⟩] [1, 2]).getD
          (([1, 2] : List Int).getD 0 0).toNat default).numConstraintsSatisfied =
        (([default, exCluster1, exCluster2] : List Cluster).getD
            (([1, 2] : List Int).getD 0 0).toNat default).numConstraintsSatisfied +
          (if ([1, 2] : List Int).getD 0 0 ∈ ([1] : List Int) then 1 else 0)) ∧
      (((calculateNumConstraintsSatisfied [1] [default, exCluster1, exCluster2]
            [⟨0, 1, ConstraintType.cannotLink⟩] [1, 2]).getD
          (([1, 2] : List Int).getD 1 0).toNat default).numConstraintsSatisfied =
        (([default, exCluster1, exCluster2] : List Cluster).getD
            (([1, 2] : List Int).getD 1 0).toNat default).numConstraintsSatisfied +
          (if ([1, 2] : List Int).getD 0 0 ∈ ([1] : List Int) then 1 else 0)) :=
  cannotLink_credits_follow_labelA [1] [1, 2] [default, exCluster1, exCluster2] 0 1
    (by decide) (by decide) (by decide) (by decide) (by decide) (by decide)

/-- C3 amended witness: at a concrete one-point input with noise level 0
the sorted output contains that point's record with score exactly 0, and
at a concrete one-point input with noise level 2 it contains that point's
record with score `1 − epsilonMax/2`. -/
theorem calculateOutlierScores_amended_witness :
    ((0 : Nat) < ([0] : List ℚ).length ∧ ([0] : List ℚ).getD 0 0 = 0 ∧
      ({ score := 0, coreDistance := ([0] : List ℚ).getD 0 0, id := 0 } :
          OutlierScore) ∈ calculateOutlierScores [default] [0] [0] [0]) ∧
      ((0 : Nat) < ([2] : List ℚ).length ∧ ([2] : List ℚ).getD 0 0 ≠ 0 ∧
        ({ score := 1 -
              (([default] : List Cluster).getD (([0] : List Nat).getD 0 0)
                  default).propagatedLowestChildDeathLevel /
                ([2] : List ℚ).getD 0 0,
            coreDistance := ([3] : List ℚ).getD 0 0, id := 0 } :
            OutlierScore) ∈ calculateOutlierScores [default] [2] [0] [3]) :=
  ⟨⟨by decide, by decide,
    (calculateOutlierScores_amended [default] [0] [0] [0]).2.2.1 0 (by decide)
      (by decide)⟩,
   ⟨by decide, by decide,
    (calculateOutlierScores_amended [default] [2] [0] [3]).2.2.2 0 (by decide)
      (by decide)⟩⟩

/-! ## C9: core-distance monotonicity in k -/

theorem countP_le_zero_of_lt (d a : ℚ) (rest : List ℚ) (ha : ∀ b ∈ rest, a ≤ b)
    (had : ¬ a ≤ d) : rest.countP (fun y => decide (y ≤ d)) = 0 :=
  List.countP_eq_zero.2 fun y hy => by
    simpa using not_le.2 (lt_of_lt_of_le (not_le.1 had) (ha y hy))

theorem sorted_le_split (d : ℚ) :
    ∀ buf : List ℚ, buf.Sorted (· ≤ ·) →
      (∀ x ∈ buf.take (buf.countP (fun y => decide (y ≤ d))), x ≤ d) ∧
        (∀ x ∈ buf.drop (buf.countP (fun y => decide (y ≤ d))), d < x)
  | [], _ => by simp
  | a :: rest, hs => by
    obtain ⟨ha, hrest⟩ := List.sorted_cons.1 hs
    obtain ⟨ih1, ih2⟩ := sorted_le_split d rest hrest
    by_cases had : a ≤ d
    · rw [List.countP_cons, if_pos (by simpa using had)]
      refine ⟨?_, ?_⟩
      · intro x hx
        rw [List.take_succ_cons] at hx
        rcases List.mem_cons.1 hx with rfl | hx
        · exact had
        · exact ih1 x hx
      · intro x hx
        rw [List.drop_succ_cons] at hx
        exact ih2 x hx
    · have hz := countP_le_zero_of_lt d a rest ha had
      rw [List.countP_cons, if_neg (by simpa using had), hz]
      refine ⟨?_, ?_⟩
      · intro x hx
        simp at hx
      · intro x hx
        rcases List.mem_cons.1 (by simpa using hx) with rfl | hx2
        · exact not_le.1 had
        · exact lt_of_lt_of_le (not_le.1 had) (ha x hx2)

theorem countP_take_min (d : ℚ) :
    ∀ (buf : List ℚ) (k : Nat), buf.Sorted (· ≤ ·) →
      (buf.take k).countP (fun y => decide (y ≤ d)) =
        min k (buf.countP (fun y => decide (y ≤ d)))
  | [], k, _ => by simp
  | _ :: _, 0, _ => by simp
  | a :: rest, k + 1, hs => by
    obtain ⟨ha, hrest⟩ := List.sorted_cons.1 hs
    have ih := countP_take_min d rest k hrest
    by_cases had : a ≤ d
    · rw [List.take_succ_cons, List.countP_cons, List.countP_cons,
        if_pos (by simpa using had), ih]
      omega
    · have hz := countP_le_zero_of_lt d a rest ha had
      have hz2 : (rest.take k).countP (fun y => decide (y ≤ d)) = 0 :=
        List.countP_eq_zero.2 fun y hy =>
          (List.countP_eq_zero.1 hz) y (List.take_subset _ _ hy)
      rw [List.take_succ_cons, List.countP_cons, List.countP_cons,
        if_neg (by simpa using had), hz, hz2]
      omega

theorem knnInsertPos_le (buf : List ℚ) (d : ℚ) :
    ∀ start, knnInsertPos buf d start ≤ start
  | 0 => Nat.le_refl 0
  | j + 1 => by
    simp only [knnInsertPos]
    split
    · exact le_trans (knnInsertPos_le buf d j) (Nat.le_succ j)
    · exact Nat.le_refl (j + 1)

theorem knnInsertPos_eq_countP (buf : List ℚ) (d : ℚ) (hs : buf.Sorted (· ≤ ·)) :
    ∀ start, start ≤ buf.length →
      knnInsertPos buf d start = (buf.take start).countP (fun y => decide (y ≤ d))
  | 0, _ => by simp [knnInsertPos]
  | j + 1, h => by
    have hj : j < buf.length := h
    have htake : buf.take (j + 1) = buf.take j ++ [buf[j]] := by
      rw [List.take_succ, List.getElem?_eq_getElem hj]
      rfl
    simp only [knnInsertPos]
    by_cases hd : d < buf.getD j 0
    · rw [if_pos hd, knnInsertPos_eq_countP buf d hs j (le_of_lt hj), htake,
        List.countP_append]
      rw [List.getD_eq_getElem buf 0 hj] at hd
      have hbj : ¬ (buf[j] ≤ d) := not_le.2 hd
      simp [hbj]
    · rw [if_neg hd]
      rw [List.getD_eq_getElem buf 0 hj] at hd
      have hble : buf[j] ≤ d := not_lt.1 hd
      have hall : ∀ x ∈ buf.take (j + 1), (fun y => decide (y ≤ d)) x = true := by
        intro x hx
        have hsx : (buf.take (j + 1)).Sorted (· ≤ ·) :=
          List.Pairwise.sublist (List.take_sublist _ _) hs
        rw [htake] at hx hsx
        rcases List.mem_append.1 hx with hx1 | hx2
        · have hxj := (List.pairwise_append.1 hsx).2.2 x hx1 buf[j]
            (List.mem_singleton.2 rfl)
          simpa using le_trans hxj hble
        · rcases List.mem_singleton.1 hx2 with rfl
          simpa using hble
      rw [List.countP_eq_length.2 hall, List.length_take]
      omega

theorem knnInsert_eq_take (buf : List ℚ) (d : ℚ) (m : Nat) (hlen : buf.length = m) :
    knnInsert m buf d =
      (buf.take (knnInsertPos buf d m) ++ d :: buf.drop (knnInsertPos buf d m)).take m := by
  subst hlen
  unfold knnInsert
  by_cases hpos : knnInsertPos buf d buf.length < buf.length
  · rw [if_pos hpos]
  · have heq : knnInsertPos buf d buf.length = buf.length :=
      le_antisymm (knnInsertPos_le buf d _) (not_lt.1 hpos)
    rw [if_neg hpos, heq, List.take_length, List.drop_length]
    exact (List.take_left buf [d]).symm

theorem take_drop_countP_eq_while (d : ℚ) :
    ∀ buf : List ℚ, buf.Sorted (· ≤ ·) →
      buf.take (buf.countP (fun y => decide (y ≤ d))) =
          buf.takeWhile (fun y => decide (y ≤ d)) ∧
        buf.drop (buf.countP (fun y => decide (y ≤ d))) =
          buf.dropWhile (fun y => decide (y ≤ d))
  | [], _ => by simp
  | a :: rest, hs => by
    obtain ⟨ha, hrest⟩ := List.sorted_cons.1 hs
    obtain ⟨ih1, ih2⟩ := take_drop_countP_eq_while d rest hrest
    by_cases had : a ≤ d
    · rw [List.countP_cons, if_pos (by simpa using had)]
      refine ⟨?_, ?_⟩
      · rw [List.take_succ_cons, ih1, List.takeWhile_cons, if_pos (by simpa using had)]
      · rw [List.drop_succ_cons, ih2, List.dropWhile_cons, if_pos (by simpa using had)]
    · have hz := countP_le_zero_of_lt d a rest ha had
      rw [List.countP_cons, if_neg (by simpa using had), hz]
      refine ⟨?_, ?_⟩
      · rw [List.takeWhile_cons, if_neg (by simpa using had)]
        rfl
      · rw [List.dropWhile_cons, if_neg (by simpa using had)]
        rfl

theorem knnInsert_eq_takeWhile (buf : List ℚ) (d : ℚ) (m : Nat)
    (hs : buf.Sorted (· ≤ ·)) (hlen : buf.length = m) :
    knnInsert m buf d =
      (buf.takeWhile (fun y => decide (y ≤ d)) ++
        d :: buf.dropWhile (fun y => decide (y ≤ d))).take m := by
  have ht : buf.take m = buf := by rw [← hlen, List.take_length]
  rw [knnInsert_eq_take buf d m hlen,
    knnInsertPos_eq_countP buf d hs m (le_of_eq hlen.symm), ht,
    (take_drop_countP_eq_while d buf hs).1, (take_drop_countP_eq_while d buf hs).2]

theorem knnInsert_sorted (buf : List ℚ) (d : ℚ) (m : Nat)
    (hs : buf.Sorted (· ≤ ·)) (hlen : buf.length = m) :
    (knnInsert m buf d).Sorted (· ≤ ·) := by
  have ht : buf.take m = buf := by rw [← hlen, List.take_length]
  rw [knnInsert_eq_take buf d m hlen,
    knnInsertPos_eq_countP buf d hs m (le_of_eq hlen.symm), ht]
  apply List.Pairwise.sublist (List.take_sublist _ _)
  obtain ⟨hle, hgt⟩ := sorted_le_split d buf hs
  rw [List.pairwise_append]
  refine ⟨List.Pairwise.sublist (List.take_sublist _ _) hs, ?_, ?_⟩
  · rw [List.pairwise_cons]
    exact ⟨fun y hy => (hgt y hy).le,
      List.Pairwise.sublist (List.drop_sublist _ _) hs⟩
  · intro x hx y hy
    rcases List.mem_cons.1 hy with rfl | hy2
    · exact hle x hx
    · exact le_trans (hle x hx) (hgt y hy2).le

theorem knnInsert_length (buf : List ℚ) (d : ℚ) (m : Nat) (hlen : buf.length = m) :
    (knnInsert m buf d).length = m := by
  have hp := knnInsertPos_le buf d m
  rw [knnInsert_eq_take buf d m hlen]
  simp only [List.length_take, List.length_append, List.length_cons, List.length_drop,
    hlen]
  omega

theorem knnInsert_mem (buf : List ℚ) (d : ℚ) (m : Nat) (x : ℚ)
    (hx : x ∈ knnInsert m buf d) : x ∈ buf ∨ x = d := by
  unfold knnInsert at hx
  by_cases h : knnInsertPos buf d m < m
  · rw [if_pos h] at hx
    have hx2 := List.take_subset _ _ hx
    rcases List.mem_append.1 hx2 with h1 | h2
    · exact Or.inl (List.take_subset _ _ h1)
    · rcases List.mem_cons.1 h2 with rfl | h3
      · exact Or.inr rfl
      · exact Or.inl (List.drop_subset _ _ h3)
  · rw [if_neg h] at hx
    exact Or.inl hx

theorem takeWhile_take (p : ℚ → Bool) :
    ∀ (l : List ℚ) (k : Nat), (l.take k).takeWhile p = (l.takeWhile p).take k
  | [], k => by simp
  | a :: l, 0 => by simp
  | a :: l, k + 1 => by
    rw [List.take_succ_cons, List.takeWhile_cons, List.takeWhile_cons]
    by_cases hp : p a
    · simp only [if_pos hp]
      rw [List.take_succ_cons, takeWhile_take p l k]
    · simp only [if_neg hp]
      rfl

theorem dropWhile_append_all (p : ℚ → Bool) :
    ∀ (A X : List ℚ), (∀ a ∈ A, p a = true) →
      (A ++ X).dropWhile p = X.dropWhile p
  | [], X, _ => by simp
  | a :: A, X, h => by
    rw [List.cons_append, List.dropWhile_cons, if_pos (h a (List.mem_cons_self a A))]
    exact dropWhile_append_all p A X fun b hb => h b (List.mem_cons_of_mem a hb)

theorem dropWhile_head_false (p : ℚ → Bool) :
    ∀ (l : List ℚ) (x : ℚ) (t : List ℚ), l.dropWhile p = x :: t → p x = false
  | [], x, t, h => by simp at h
  | a :: l, x, t, h => by
    rw [List.dropWhile_cons] at h
    by_cases hp : p a
    · rw [if_pos hp] at h
      exact dropWhile_head_false p l x t h
    · rw [if_neg hp] at h
      cases h
      exact Bool.eq_false_iff.2 hp

theorem dropWhile_take_dropWhile (p : ℚ → Bool) (l : List ℚ) (c : Nat) :
    ((l.dropWhile p).take c).dropWhile p = (l.dropWhile p).take c := by
  cases hdw : l.dropWhile p with
  | nil => simp
  | cons x t =>
    have hx := dropWhile_head_false p l x t hdw
    cases c with
    | zero => simp
    | succ c =>
      rw [List.take_succ_cons, List.dropWhile_cons, if_neg (by simp [hx])]

theorem take_insert_take {α : Type} (A B : List α) (d : α) (m1 : Nat) :
    (A.take m1 ++ d :: B.take (m1 - A.length)).take m1 = (A ++ d :: B).take m1 := by
  rw [@List.take_append_eq_append_take α A (d :: B) m1,
    @List.take_append_eq_append_take α (A.take m1)
      (d :: B.take (m1 - A.length)) m1]
  rw [List.take_take, min_self, List.length_take]
  by_cases hcase : m1 ≤ A.length
  · have h1 : m1 - A.length = 0 := by omega
    have h2 : m1 - m1 ⊓ A.length = 0 := by omega
    rw [h1, h2]
    simp
  · have hmin2 : m1 ⊓ A.length = A.length := by omega
    rw [hmin2]
    cases hc2 : m1 - A.length with
    | zero => omega
    | succ c2 =>
      rw [List.take_succ_cons, List.take_succ_cons, List.take_take]
      rw [min_eq_left (by omega : c2 ≤ c2 + 1)]

theorem knnInsert_take_commute (m1 m2 : Nat) (h12 : m1 ≤ m2) (buf : List ℚ) (d : ℚ)
    (hs : buf.Sorted (· ≤ ·)) (hlen : buf.length = m2) :
    knnInsert m1 (buf.take m1) d = (knnInsert m2 buf d).take m1 := by
  have hs1 : (buf.take m1).Sorted (· ≤ ·) :=
    List.Pairwise.sublist (List.take_sublist _ _) hs
  have hl1 : (buf.take m1).length = m1 := by
    rw [List.length_take]
    omega
  have hAall : ∀ a ∈ (buf.takeWhile (fun y => decide (y ≤ d))).take m1,
      (fun y => decide (y ≤ d)) a = true := by
    intro a ha2
    have ha3 : a ∈ buf.takeWhile (fun y => decide (y ≤ d)) :=
      List.take_subset _ _ ha2
    exact List.mem_takeWhile_imp (p := fun y => decide (y ≤ d)) ha3
  have hdw : (buf.take m1).dropWhile (fun y => decide (y ≤ d)) =
      (buf.dropWhile (fun y => decide (y ≤ d))).take
        (m1 - (buf.takeWhile (fun y => decide (y ≤ d))).length) := by
    conv_lhs =>
      rw [← List.takeWhile_append_dropWhile (fun y => decide (y ≤ d)) buf,
        List.take_append_eq_append_take]
    rw [dropWhile_append_all _ _ _ hAall]
    exact dropWhile_take_dropWhile _ buf _
  rw [knnInsert_eq_takeWhile (buf.take m1) d m1 hs1 hl1,
    knnInsert_eq_takeWhile buf d m2 hs hlen, List.take_take,
    min_eq_left h12, takeWhile_take, hdw]
  exact take_insert_take _ _ d m1

theorem knn_foldl_sorted_length (m : Nat) (f : Nat → ℚ) (point : Nat) :
    ∀ (l : List Nat) (buf : List ℚ), buf.Sorted (· ≤ ·) → buf.length = m →
      (l.foldl (fun kNN n => if point = n then kNN else knnInsert m kNN (f n))
          buf).Sorted (· ≤ ·) ∧
        (l.foldl (fun kNN n => if point = n then kNN else knnInsert m kNN (f n))
            buf).length = m
  | [], buf, hs, hl => ⟨hs, hl⟩
  | n :: l, buf, hs, hl => by
    rw [List.foldl_cons]
    by_cases hpn : point = n
    · simp only [if_pos hpn]
      exact knn_foldl_sorted_length m f point l buf hs hl
    · simp only [if_neg hpn]
      exact knn_foldl_sorted_length m f point l (knnInsert m buf (f n))
        (knnInsert_sorted buf (f n) m hs hl) (knnInsert_length buf (f n) m hl)

theorem knn_foldl_mem (m : Nat) (f : Nat → ℚ) (point : Nat) :
    ∀ (l : List Nat) (buf : List ℚ) (x : ℚ),
      x ∈ l.foldl (fun kNN n => if point = n then kNN else knnInsert m kNN (f n)) buf →
        x ∈ buf ∨ ∃ n, x = f n
  | [], _, _, hx => Or.inl hx
  | n :: l, buf, x, hx => by
    rw [List.foldl_cons] at hx
    by_cases hpn : point = n
    · simp only [if_pos hpn] at hx
      exact knn_foldl_mem m f point l buf x hx
    · simp only [if_neg hpn] at hx
      rcases knn_foldl_mem m f point l _ x hx with hmem | hfn
      · rcases knnInsert_mem buf (f n) m x hmem with h | h
        · exact Or.inl h
        · exact Or.inr ⟨n, h⟩
      · exact Or.inr hfn

theorem knn_foldl_take_commute (m1 m2 : Nat) (h12 : m1 ≤ m2) (f : Nat → ℚ) (point : Nat) :
    ∀ (l : List Nat) (buf : List ℚ), buf.Sorted (· ≤ ·) → buf.length = m2 →
      l.foldl (fun kNN n => if point = n then kNN else knnInsert m1 kNN (f n))
          (buf.take m1) =
        (l.foldl (fun kNN n => if point = n then kNN else knnInsert m2 kNN (f n))
            buf).take m1
  | [], _, _, _ => rfl
  | n :: l, buf, hs, hl => by
    rw [List.foldl_cons, List.foldl_cons]
    by_cases hpn : point = n
    · simp only [if_pos hpn]
      exact knn_foldl_take_commute m1 m2 h12 f point l buf hs hl
    · simp only [if_neg hpn]
      rw [knnInsert_take_commute m1 m2 h12 buf (f n) hs hl]
      exact knn_foldl_take_commute m1 m2 h12 f point l (knnInsert m2 buf (f n))
        (knnInsert_sorted buf (f n) m2 hs hl) (knnInsert_length buf (f n) m2 hl)

theorem replicate_sorted (m : Nat) (c : ℚ) :
    (List.replicate m c).Sorted (· ≤ ·) :=
  List.pairwise_replicate.2 (Or.inr (le_refl c))

theorem getD_nonneg_of_mem_nonneg (row : List ℚ) (h : ∀ x ∈ row, 0 ≤ x) (n : Nat) :
    0 ≤ row.getD n 0 := by
  rcases lt_or_ge n row.length with hlt | hge
  · rw [List.getD_eq_getElem _ _ hlt]
    exact h _ (List.getElem_mem hlt)
  · rw [List.getD_eq_default _ _ hge]

theorem dblMax_pos : (0 : ℚ) < dblMax := by
  rw [dblMax]
  positivity

theorem corePointBuffer_sorted_length (distances : List (List ℚ)) (point m : Nat) :
    (corePointBuffer distances point m).Sorted (· ≤ ·) ∧
      (corePointBuffer distances point m).length = m :=
  knn_foldl_sorted_length m (fun n => (distances.getD point []).getD n 0) point
    (List.range distances.length) (List.replicate m dblMax)
    (replicate_sorted m dblMax) (List.length_replicate m dblMax)

theorem corePointBuffer_mem (distances : List (List ℚ)) (point m : Nat) (x : ℚ)
    (hx : x ∈ corePointBuffer distances point m) :
    x = dblMax ∨ ∃ n, x = (distances.getD point []).getD n 0 := by
  rcases knn_foldl_mem m (fun n => (distances.getD point []).getD n 0) point
      (List.range distances.length) (List.replicate m dblMax) x hx with h | h
  · exact Or.inl (List.eq_of_mem_replicate h)
  · exact Or.inr h

theorem corePointBuffer_take_commute (distances : List (List ℚ)) (point m1 m2 : Nat)
    (h12 : m1 ≤ m2) :
    corePointBuffer distances point m1 = (corePointBuffer distances point m2).take m1 := by
  have hrep : (List.replicate m2 dblMax).take m1 = List.replicate m1 dblMax := by
    rw [List.take_replicate, min_eq_left h12]
  have h := knn_foldl_take_commute m1 m2 h12
    (fun n => (distances.getD point []).getD n 0) point
    (List.range distances.length) (List.replicate m2 dblMax)
    (replicate_sorted m2 dblMax) (List.length_replicate m2 dblMax)
  rw [hrep] at h
  exact h

/-- C9: for a fixed point and distance matrix (with non-negative entries),
the core distance is monotonically non-decreasing in `k`, and for `k = 1`
every core distance is exactly 0 (the source special-cases `k == 1` to 0,
and for larger `k` the core distance is the last entry of the sorted
buffer of the `k − 1` smallest neighbor distances, which only grows as the
buffer widens). -/
theorem calculateCoreDistances_monotone (distances : List (List ℚ)) (p k1 k2 : Nat)
    (h1 : 1 ≤ k1) (h12 : k1 ≤ k2)
    (hnn : ∀ row ∈ distances, ∀ x ∈ row, 0 ≤ x) :
    (calculateCoreDistances distances k1).getD p 0 ≤
        (calculateCoreDistances distances k2).getD p 0 ∧
      (calculateCoreDistances distances 1).getD p 0 = 0 := by
  have hone : ∀ q : Nat, (calculateCoreDistances distances 1).getD q 0 = 0 := by
    intro q
    rw [calculateCoreDistances, if_pos rfl, List.getD_eq_getElem?_getD,
      List.getElem?_replicate]
    by_cases hq : q < distances.length
    · rw [if_pos hq]
      rfl
    · rw [if_neg hq]
      rfl
  have hval : ∀ k, 2 ≤ k → p < distances.length →
      (calculateCoreDistances distances k).getD p 0 =
        (corePointBuffer distances p (k - 1)).getD (k - 2) 0 := by
    intro k hk hp
    rw [calculateCoreDistances, if_neg (by omega), List.getD_eq_getElem?_getD,
      List.getElem?_map, List.getElem?_range hp, Option.map_some', Option.getD_some]
  have hout : ∀ k, 2 ≤ k → ¬ p < distances.length →
      (calculateCoreDistances distances k).getD p 0 = 0 := by
    intro k hk hp2
    rw [calculateCoreDistances, if_neg (by omega)]
    rw [List.getD_eq_default]
    rw [List.length_map, List.length_range]
    omega
  have hnonneg : ∀ k, 2 ≤ k → 0 ≤ (calculateCoreDistances distances k).getD p 0 := by
    intro k hk
    by_cases hp : p < distances.length
    · rw [hval k hk hp]
      obtain ⟨hsb, hlb⟩ := corePointBuffer_sorted_length distances p (k - 1)
      have hk2 : k - 2 < (corePointBuffer distances p (k - 1)).length := by omega
      rw [List.getD_eq_getElem _ _ hk2]
      rcases corePointBuffer_mem distances p (k - 1) _ (List.getElem_mem hk2) with
        h | ⟨n, h⟩
      · rw [h]
        exact dblMax_pos.le
      · rw [h]
        apply getD_nonneg_of_mem_nonneg
        intro x hxrow
        have hrow : distances.getD p [] ∈ distances := by
          rw [List.getD_eq_getElem _ _ hp]
          exact List.getElem_mem hp
        exact hnn _ hrow x hxrow
    · rw [hout k hk hp]
  refine ⟨?_, hone p⟩
  rcases Nat.lt_or_ge k1 2 with hk1 | hk1
  · have hk1e : k1 = 1 := by omega
    subst hk1e
    rw [hone p]
    rcases Nat.lt_or_ge k2 2 with hk2 | hk2
    · have hk2e : k2 = 1 := by omega
      subst hk2e
      rw [hone p]
    · exact hnonneg k2 hk2
  · have hk2 : 2 ≤ k2 := le_trans hk1 h12
    by_cases hp : p < distances.length
    · rw [hval k1 hk1 hp, hval k2 hk2 hp]
      obtain ⟨hsb2, hlb2⟩ := corePointBuffer_sorted_length distances p (k2 - 1)
      rw [corePointBuffer_take_commute distances p (k1 - 1) (k2 - 1) (by omega)]
      simp only [List.getD_eq_getElem?_getD]
      rw [List.getElem?_take, if_pos (by omega : k1 - 2 < k1 - 1)]
      have hb1 : k1 - 2 < (corePointBuffer distances p (k2 - 1)).length := by omega
      have hb2 : k2 - 2 < (corePointBuffer distances p (k2 - 1)).length := by omega
      rw [List.getElem?_eq_getElem hb1, List.getElem?_eq_getElem hb2]
      simp only [Option.getD_some]
      have hrel := hsb2.rel_get_of_le (a := ⟨k1 - 2, hb1⟩) (b := ⟨k2 - 2, hb2⟩)
        (Fin.mk_le_mk.mpr (by omega))
      simpa [List.get_eq_getElem] using hrel
    · rw [hout k1 hk1 hp, hout k2 hk2 hp]

/-- C9 witness: concrete two-point matrix, `k1 = 1`, `k2 = 2`. -/
theorem calculateCoreDistances_monotone_witness :
    ((calculateCoreDistances [[0, 1], [1, 0]] 1).getD 0 0 ≤
        (calculateCoreDistances [[0, 1], [1, 0]] 2).getD 0 0) ∧
      (calculateCoreDistances [[0, 1], [1, 0]] 1).getD 0 0 = 0 :=
  calculateCoreDistances_monotone [[0, 1], [1, 0]] 0 1 2 (by decide) (by decide)
    (by decide)

/-! ## MST scan: step characterization -/

theorem mstScanStep_skip (d : Nat → Nat → ℚ) (cd : Nat → ℚ) (attached : List Nat)
    (current : Nat) (acc : ScanAcc) (k : Nat) (hk : k = current ∨ k ∈ attached) :
    mstScanStep d cd attached current acc k = acc := by
  unfold mstScanStep
  rcases hk with hk | hk
  · rw [if_pos hk]
  · by_cases hc : k = current
    · rw [if_pos hc]
    · rw [if_neg hc, if_pos hk]

theorem mstScanStep_upd_sel (d : Nat → Nat → ℚ) (cd : Nat → ℚ) (attached : List Nat)
    (current : Nat) (acc : ScanAcc) (k : Nat) (hc1 : ¬ k = current)
    (hc2 : k ∉ attached) (hu : mrd d cd current k < acc.nd k)
    (hs : mrd d cd current k ≤ acc.bestDist) :
    mstScanStep d cd attached current acc k =
      { nd := Function.update acc.nd k (mrd d cd current k),
        nbr := Function.update acc.nbr k current,
        bestDist := mrd d cd current k, bestPoint := some k } := by
  unfold mstScanStep
  rw [if_neg hc1, if_neg hc2]
  simp only [if_pos hu, Function.update_same]
  rw [if_pos hs]

theorem mstScanStep_upd_nosel (d : Nat → Nat → ℚ) (cd : Nat → ℚ)
    (attached : List Nat) (current : Nat) (acc : ScanAcc) (k : Nat)
    (hc1 : ¬ k = current) (hc2 : k ∉ attached)
    (hu : mrd d cd current k < acc.nd k)
    (hs : ¬ mrd d cd current k ≤ acc.bestDist) :
    mstScanStep d cd attached current acc k =
      { nd := Function.update acc.nd k (mrd d cd current k),
        nbr := Function.update acc.nbr k current,
        bestDist := acc.bestDist, bestPoint := acc.bestPoint } := by
  unfold mstScanStep
  rw [if_neg hc1, if_neg hc2]
  simp only [if_pos hu, Function.update_same]
  rw [if_neg hs]

theorem mstScanStep_noupd_sel (d : Nat → Nat → ℚ) (cd : Nat → ℚ)
    (attached : List Nat) (current : Nat) (acc : ScanAcc) (k : Nat)
    (hc1 : ¬ k = current) (hc2 : k ∉ attached)
    (hu : ¬ mrd d cd current k < acc.nd k) (hs : acc.nd k ≤ acc.bestDist) :
    mstScanStep d cd attached current acc k =
      { nd := acc.nd, nbr := acc.nbr, bestDist := acc.nd k,
        bestPoint := some k } := by
  unfold mstScanStep
  rw [if_neg hc1, if_neg hc2]
  simp only [if_neg hu]
  rw [if_pos hs]

theorem mstScanStep_noupd_nosel (d : Nat → Nat → ℚ) (cd : Nat → ℚ)
    (attached : List Nat) (current : Nat) (acc : ScanAcc) (k : Nat)
    (hc1 : ¬ k = current) (hc2 : k ∉ attached)
    (hu : ¬ mrd d cd current k < acc.nd k) (hs : ¬ acc.nd k ≤ acc.bestDist) :
    mstScanStep d cd attached current acc k = acc := by
  unfold mstScanStep
  rw [if_neg hc1, if_neg hc2]
  simp only [if_neg hu]
  rw [if_neg hs]

theorem ScanSpec.skip {d : Nat → Nat → ℚ} {cd : Nat → ℚ} {attached : List Nat}
    {current : Nat} {nd₀ : Nat → ℚ} {nbr₀ : Nat → Nat} {k : Nat} {acc : ScanAcc}
    (h : ScanSpec d cd attached current nd₀ nbr₀ k acc)
    (hk : k = current ∨ k ∈ attached) :
    ScanSpec d cd attached current nd₀ nbr₀ (k + 1) acc := by
  have hnc : ∀ q, q < k + 1 → q ∉ attached → q ≠ current → q < k := by
    intro q hq hqa hqc
    rcases Nat.lt_succ_iff_lt_or_eq.1 hq with h' | rfl
    · exact h'
    · rcases hk with hk | hk
      · exact absurd hk hqc
      · exact absurd hk hqa
  refine ⟨?_, h.nd_le, ?_, ?_, ?_, ?_, ?_⟩
  · intro q hq
    refine h.unchanged q ?_
    rcases hq with hq | hq
    · exact Or.inl (Nat.le_of_succ_le hq)
    · exact Or.inr hq
  · intro q hq hqa hqc
    exact h.upd q (hnc q hq hqa hqc) hqa hqc
  · intro hbp
    obtain ⟨h1, h2⟩ := h.none_spec hbp
    refine ⟨h1, ?_⟩
    intro q hq hqa
    by_cases hqc : q = current
    · exact hqc
    · exact h2 q (hnc q hq hqa hqc) hqa
  · intro p hp
    obtain ⟨a, b, c, e⟩ := h.some_spec p hp
    exact ⟨Nat.lt_succ_of_lt a, b, c, e⟩
  · intro q hq hqa hqc
    exact h.min_spec q (hnc q hq hqa hqc) hqa hqc
  · intro q hq hqa hqc he
    exact h.max_spec q (hnc q hq hqa hqc) hqa hqc he

theorem scanSpec_step (d : Nat → Nat → ℚ) (cd : Nat → ℚ) (attached : List Nat)
    (current : Nat) (nd₀ : Nat → ℚ) (nbr₀ : Nat → Nat)
    (hnd₀ : ∀ q, nd₀ q ≤ dblMax) (k : Nat) (acc : ScanAcc)
    (h : ScanSpec d cd attached current nd₀ nbr₀ k acc) :
    ScanSpec d cd attached current nd₀ nbr₀ (k + 1)
      (mstScanStep d cd attached current acc k) := by
  by_cases hc1 : k = current
  · rw [mstScanStep_skip d cd attached current acc k (Or.inl hc1)]
    exact h.skip (Or.inl hc1)
  by_cases hc2 : k ∈ attached
  · rw [mstScanStep_skip d cd attached current acc k (Or.inr hc2)]
    exact h.skip (Or.inr hc2)
  obtain ⟨hndk, hnbrk⟩ := h.unchanged k (Or.inl (le_refl k))
  have hMled : mrd d cd current k < acc.nd k → mrd d cd current k ≤ dblMax := by
    intro hu
    exact le_of_lt (lt_of_lt_of_le hu (le_trans (h.nd_le k) (hnd₀ k)))
  have hndd : acc.nd k ≤ dblMax := le_trans (h.nd_le k) (hnd₀ k)
  by_cases hu : mrd d cd current k < acc.nd k
  · by_cases hs : mrd d cd current k ≤ acc.bestDist
    · rw [mstScanStep_upd_sel d cd attached current acc k hc1 hc2 hu hs]
      refine ⟨?_, ?_, ?_, ?_, ?_, ?_, ?_⟩
      · intro q hq
        have hqk : q ≠ k := by
          rcases hq with hq | hq | hq
          · omega
          · exact fun he => hc2 (he ▸ hq)
          · exact fun he => hc1 (he ▸ hq)
        simp only [Function.update_noteq hqk]
        refine h.unchanged q ?_
        rcases hq with hq | hq
        · exact Or.inl (by omega)
        · exact Or.inr hq
      · intro q
        by_cases hqk : q = k
        · subst hqk
          simp only [Function.update_same]
          exact le_of_lt (lt_of_lt_of_le hu (h.nd_le q))
        · simp only [Function.update_noteq hqk]
          exact h.nd_le q
      · intro q hq hqa hqc
        by_cases hqk : q = k
        · subst hqk
          right
          exact ⟨Function.update_same _ _ _, Function.update_same _ _ _⟩
        · simp only [Function.update_noteq hqk]
          exact h.upd q (by omega) hqa hqc
      · intro hbp
        simp at hbp
      · intro p hp
        have hpk : p = k := by simpa using hp.symm
        subst hpk
        refine ⟨Nat.lt_succ_self p, hc2, hc1, ?_⟩
        exact (Function.update_same p _ acc.nd).symm
      · intro q hq hqa hqc
        by_cases hqk : q = k
        · subst hqk
          simp only [Function.update_same]
          exact le_refl _
        · simp only [Function.update_noteq hqk]
          exact le_trans hs (h.min_spec q (by omega) hqa hqc)
      · intro q hq hqa hqc he
        exact ⟨k, rfl, by omega⟩
    · rw [mstScanStep_upd_nosel d cd attached current acc k hc1 hc2 hu hs]
      refine ⟨?_, ?_, ?_, ?_, ?_, ?_, ?_⟩
      · intro q hq
        have hqk : q ≠ k := by
          rcases hq with hq | hq | hq
          · omega
          · exact fun he => hc2 (he ▸ hq)
          · exact fun he => hc1 (he ▸ hq)
        simp only [Function.update_noteq hqk]
        refine h.unchanged q ?_
        rcases hq with hq | hq
        · exact Or.inl (by omega)
        · exact Or.inr hq
      · intro q
        by_cases hqk : q = k
        · subst hqk
          simp only [Function.update_same]
          exact le_of_lt (lt_of_lt_of_le hu (h.nd_le q))
        · simp only [Function.update_noteq hqk]
          exact h.nd_le q
      · intro q hq hqa hqc
        by_cases hqk : q = k
        · subst hqk
          right
          exact ⟨Function.update_same _ _ _, Function.update_same _ _ _⟩
        · simp only [Function.update_noteq hqk]
          exact h.upd q (by omega) hqa hqc
      · intro hbp
        obtain ⟨hbd, _⟩ := h.none_spec hbp
        exact absurd (hbd ▸ hMled hu) hs
      · intro p hp
        obtain ⟨a, b, c, e⟩ := h.some_spec p hp
        refine ⟨Nat.lt_succ_of_lt a, b, c, ?_⟩
        simp only [Function.update_noteq (by omega : p ≠ k)]
        exact e
      · intro q hq hqa hqc
        by_cases hqk : q = k
        · subst hqk
          simp only [Function.update_same]
          exact le_of_lt (not_le.1 hs)
        · simp only [Function.update_noteq hqk]
          exact h.min_spec q (by omega) hqa hqc
      · intro q hq hqa hqc he
        by_cases hqk : q = k
        · subst hqk
          simp only [Function.update_same] at he
          exact absurd (he ▸ not_le.1 hs) (lt_irrefl _)
        · simp only [Function.update_noteq hqk] at he
          obtain ⟨p, hp, hqp⟩ := h.max_spec q (by omega) hqa hqc he
          exact ⟨p, hp, hqp⟩
  · by_cases hs : acc.nd k ≤ acc.bestDist
    · rw [mstScanStep_noupd_sel d cd attached current acc k hc1 hc2 hu hs]
      refine ⟨?_, ?_, ?_, ?_, ?_, ?_, ?_⟩
      · intro q hq
        refine h.unchanged q ?_
        rcases hq with hq | hq
        · exact Or.inl (by omega)
        · exact Or.inr hq
      · exact h.nd_le
      · intro q hq hqa hqc
        by_cases hqk : q = k
        · subst hqk
          left
          exact ⟨hndk, hnbrk, hndk ▸ not_lt.1 hu⟩
        · exact h.upd q (by omega) hqa hqc
      · intro hbp
        simp at hbp
      · intro p hp
        have hpk : p = k := by simpa using hp.symm
        subst hpk
        exact ⟨Nat.lt_succ_self p, hc2, hc1, rfl⟩
      · intro q hq hqa hqc
        by_cases hqk : q = k
        · subst hqk
          exact le_refl _
        · exact le_trans hs (h.min_spec q (by omega) hqa hqc)
      · intro q hq hqa hqc he
        exact ⟨k, rfl, by omega⟩
    · rw [mstScanStep_noupd_nosel d cd attached current acc k hc1 hc2 hu hs]
      refine ⟨?_, ?_, ?_, ?_, ?_, ?_, ?_⟩
      · intro q hq
        refine h.unchanged q ?_
        rcases hq with hq | hq
        · exact Or.inl (by omega)
        · exact Or.inr hq
      · exact h.nd_le
      · intro q hq hqa hqc
        by_cases hqk : q = k
        · subst hqk
          left
          exact ⟨hndk, hnbrk, hndk ▸ not_lt.1 hu⟩
        · exact h.upd q (by omega) hqa hqc
      · intro hbp
        obtain ⟨hbd, _⟩ := h.none_spec hbp
        exact absurd (hbd ▸ hndd) hs
      · intro p hp
        obtain ⟨a, b, c, e⟩ := h.some_spec p hp
        exact ⟨Nat.lt_succ_of_lt a, b, c, e⟩
      · intro q hq hqa hqc
        by_cases hqk : q = k
        · subst hqk
          exact le_of_lt (not_le.1 hs)
        · exact h.min_spec q (by omega) hqa hqc
      · intro q hq hqa hqc he
        by_cases hqk : q = k
        · subst hqk
          exact absurd (he ▸ not_le.1 hs) (lt_irrefl _)
        · exact h.max_spec q (by omega) hqa hqc he

theorem mstScan_spec (d : Nat → Nat → ℚ) (cd : Nat → ℚ) (attached : List Nat)
    (current : Nat) (nd₀ : Nat → ℚ) (nbr₀ : Nat → Nat)
    (hnd₀ : ∀ q, nd₀ q ≤ dblMax) :
    ∀ m : Nat, ScanSpec d cd attached current nd₀ nbr₀ m
      ((List.range m).foldl (mstScanStep d cd attached current)
        { nd := nd₀, nbr := nbr₀, bestDist := dblMax, bestPoint := none })
  | 0 => by
    refine ⟨fun q _ => ⟨rfl, rfl⟩, fun q => le_refl _,
      fun q hq => (Nat.not_lt_zero q hq).elim,
      fun _ => ⟨rfl, fun q hq => (Nat.not_lt_zero q hq).elim⟩,
      fun p hp => by simp at hp,
      fun q hq => (Nat.not_lt_zero q hq).elim,
      fun q hq => (Nat.not_lt_zero q hq).elim⟩
  | m + 1 => by
    rw [List.range_succ, List.foldl_append, List.foldl_cons, List.foldl_nil]
    exact scanSpec_step d cd attached current nd₀ nbr₀ hnd₀ m _
      (mstScan_spec d cd attached current nd₀ nbr₀ hnd₀ m)

theorem mstScan_spec' (d : Nat → Nat → ℚ) (cd : Nat → ℚ) (n : Nat)
    (attached : List Nat) (current : Nat) (nd₀ : Nat → ℚ) (nbr₀ : Nat → Nat)
    (hnd₀ : ∀ q, nd₀ q ≤ dblMax) :
    ScanSpec d cd attached current nd₀ nbr₀ n
      (mstScan d cd n attached current nd₀ nbr₀) :=
  mstScan_spec d cd attached current nd₀ nbr₀ hnd₀ n

/-! ## MST loop: attachment chain lemmas -/

theorem mem_of_getLast?_eq (l : List Nat) (r : Nat) (h : l.getLast? = some r) :
    r ∈ l := by
  cases l with
  | nil => simp at h
  | cons a t =>
    have hne : (a :: t : List Nat) ≠ [] := by simp
    rw [List.getLast?_eq_getLast _ hne] at h
    exact (Option.some.inj h) ▸ List.getLast_mem hne

theorem getLast?_cons_of_ne_nil (a : Nat) (l : List Nat) (hl : l ≠ []) (r : Nat)
    (h : (a :: l).getLast? = some r) : l.getLast? = some r := by
  rw [List.getLast?_cons] at h
  rw [List.getLast?_eq_getLast l hl] at h ⊢
  simpa using h

theorem AttChain.ne_nil {d : Nat → Nat → ℚ} {cd : Nat → ℚ} {nbr : Nat → Nat}
    {nd : Nat → ℚ} {l : List Nat} (h : AttChain d cd nbr nd l) : l ≠ [] := by
  cases h <;> simp

theorem AttChain.congr {d : Nat → Nat → ℚ} {cd : Nat → ℚ} {nbr nbr' : Nat → Nat}
    {nd nd' : Nat → ℚ} :
    ∀ {l : List Nat}, AttChain d cd nbr nd l →
      (∀ p ∈ l, nbr' p = nbr p ∧ nd' p = nd p) → AttChain d cd nbr' nd' l
  | _, .single r, _ => .single r
  | _, .cons p rest hmem hw hrest, hcong => by
    obtain ⟨hn, hd⟩ := hcong p (List.mem_cons_self p rest)
    refine AttChain.cons p rest ?_ ?_
      (hrest.congr fun x hx => hcong x (List.mem_cons_of_mem p hx))
    · rw [hn]
      exact hmem
    · rw [hd, hn]
      exact hw

theorem AttChain.weight {d : Nat → Nat → ℚ} {cd : Nat → ℚ} {nbr : Nat → Nat}
    {nd : Nat → ℚ} :
    ∀ {l : List Nat}, AttChain d cd nbr nd l → ∀ r, l.getLast? = some r →
      ∀ p ∈ l, p ≠ r → nd p = mrd d cd (nbr p) p
  | _, .single a, r, hlast, p, hp, hpr => by
    have hpa : p = a := by simpa using hp
    have har : a = r := by simpa using hlast
    exact absurd (hpa.trans har) hpr
  | _, .cons q rest hmem hw hrest, r, hlast, p, hp, hpr => by
    rcases List.mem_cons.1 hp with rfl | hp2
    · exact hw
    · exact hrest.weight r (getLast?_cons_of_ne_nil q rest hrest.ne_nil r hlast)
        p hp2 hpr

theorem AttChain.reach {d : Nat → Nat → ℚ} {cd : Nat → ℚ} {nbr : Nat → Nat}
    {nd : Nat → ℚ} (R : Nat → Nat → Prop) :
    ∀ {l : List Nat}, AttChain d cd nbr nd l → l.Nodup → ∀ r, l.getLast? = some r →
      (∀ p ∈ l, p ≠ r → R p (nbr p)) → ∀ p ∈ l, Relation.ReflTransGen R p r
  | _, .single a, _, r, hlast, _, p, hp => by
    have hpa : p = a := by simpa using hp
    have har : a = r := by simpa using hlast
    rw [hpa, har]
  | _, .cons q rest hmem hw hrest, hnd, r, hlast, hR, p, hp => by
    have hlast2 := getLast?_cons_of_ne_nil q rest hrest.ne_nil r hlast
    have hndrest : rest.Nodup := (List.nodup_cons.1 hnd).2
    have hqnotin : q ∉ rest := (List.nodup_cons.1 hnd).1
    rcases List.mem_cons.1 hp with rfl | hp2
    · have hqr : p ≠ r := fun he => hqnotin (he ▸ mem_of_getLast?_eq rest r hlast2)
      refine Relation.ReflTransGen.head (hR p (List.mem_cons_self p rest) hqr) ?_
      exact hrest.reach R hndrest r hlast2
        (fun x hx hxr => hR x (List.mem_cons_of_mem p hx) hxr) (nbr p) hmem
    · exact hrest.reach R hndrest r hlast2
        (fun x hx hxr => hR x (List.mem_cons_of_mem q hx) hxr) p hp2

theorem all_mem_of_nodup_length (l : List Nat) (n : Nat) (hnd : l.Nodup)
    (hlt : ∀ p ∈ l, p < n) (hlen : l.length = n) : ∀ p, p < n → p ∈ l := by
  intro p hp
  have hsub : l.toFinset ⊆ Finset.range n := by
    intro x hx
    exact Finset.mem_range.2 (hlt x (List.mem_toFinset.1 hx))
  have hcard : (Finset.range n).card ≤ l.toFinset.card := by
    rw [Finset.card_range, List.toFinset_card_of_nodup hnd, hlen]
  have heq := Finset.eq_of_subset_of_card_le hsub hcard
  have hpin : p ∈ l.toFinset := by
    rw [heq]
    exact Finset.mem_range.2 hp
  exact List.mem_toFinset.1 hpin

theorem head_mem_of_head?_eq (l : List Nat) (c : Nat) (h : l.head? = some c) :
    c ∈ l := by
  cases l with
  | nil => simp at h
  | cons a t =>
    have : a = c := by simpa using h
    exact this ▸ List.mem_cons_self a t

theorem exists_unattached (n : Nat) (l : List Nat) (hnd : l.Nodup)
    (hlt : ∀ p ∈ l, p < n) (hlen : l.length < n) : ∃ q, q < n ∧ q ∉ l := by
  by_contra hno
  push_neg at hno
  have hsub : Finset.range n ⊆ l.toFinset := by
    intro x hx
    exact List.mem_toFinset.2 (hno x (Finset.mem_range.1 hx))
  have hcard := Finset.card_le_card hsub
  rw [Finset.card_range, List.toFinset_card_of_nodup hnd] at hcard
  omega

theorem mstLoop_basic (d : Nat → Nat → ℚ) (cd : Nat → ℚ) (n : Nat) :
    ∀ (r : Nat) (s : MstState), LoopInv n s → s.attached.length + r = n →
      ∃ s', mstLoop d cd n r s = some (s', r) ∧ LoopInv n s' ∧
        s'.attached.length = n
  | 0, s, hinv, hlen => ⟨s, rfl, hinv, by omega⟩
  | r + 1, s, hinv, hlen => by
    have spec := mstScan_spec' d cd n s.attached s.currentPoint s.nd s.nbr hinv.nd_le
    have hcur : s.currentPoint ∈ s.attached :=
      head_mem_of_head?_eq s.attached s.currentPoint hinv.head
    obtain ⟨q, hqn, hqa⟩ :=
      exists_unattached n s.attached hinv.nodup hinv.mem_lt (by omega)
    have hqc : q ≠ s.currentPoint := fun he => hqa (he ▸ hcur)
    obtain ⟨p, hp⟩ : ∃ p,
        (mstScan d cd n s.attached s.currentPoint s.nd s.nbr).bestPoint = some p := by
      cases hbp : (mstScan d cd n s.attached s.currentPoint s.nd s.nbr).bestPoint with
      | none => exact absurd (spec.none_spec hbp).2 (fun hall => hqc (hall q hqn hqa))
      | some p => exact ⟨p, rfl⟩
    obtain ⟨hpn, hpa, hpc, hbd⟩ := spec.some_spec p hp
    have hinv' : LoopInv n
        { attached := p :: s.attached, currentPoint := p,
          nd := (mstScan d cd n s.attached s.currentPoint s.nd s.nbr).nd,
          nbr := (mstScan d cd n s.attached s.currentPoint s.nd s.nbr).nbr } := by
      refine ⟨rfl, List.nodup_cons.2 ⟨hpa, hinv.nodup⟩, ?_, ?_⟩
      · intro x hx
        rcases List.mem_cons.1 hx with rfl | hx2
        · exact hpn
        · exact hinv.mem_lt x hx2
      · intro x
        exact le_trans (spec.nd_le x) (hinv.nd_le x)
    obtain ⟨s', hloop, hinv'', hlen''⟩ := mstLoop_basic d cd n r
      { attached := p :: s.attached, currentPoint := p,
        nd := (mstScan d cd n s.attached s.currentPoint s.nd s.nbr).nd,
        nbr := (mstScan d cd n s.attached s.currentPoint s.nd s.nbr).nbr }
      hinv' (by simp; omega)
    refine ⟨s', ?_, hinv'', hlen''⟩
    simp only [mstLoop, hp, hloop, Option.map_some']

theorem mstLoop_strong (d : Nat → Nat → ℚ) (cd : Nat → ℚ) (n : Nat)
    (hm : ∀ a b, a < n → b < n → mrd d cd a b < dblMax) :
    ∀ (r : Nat) (s : MstState), LoopInvStrong d cd n s → s.attached.length + r = n →
      ∃ s', mstLoop d cd n r s = some (s', r) ∧ LoopInvStrong d cd n s' ∧
        s'.attached.length = n
  | 0, s, hinv, hlen => ⟨s, rfl, hinv, by omega⟩
  | r + 1, s, hinv, hlen => by
    have hbasic := hinv.basic
    have spec := mstScan_spec' d cd n s.attached s.currentPoint s.nd s.nbr
      hbasic.nd_le
    have hcur : s.currentPoint ∈ s.attached :=
      head_mem_of_head?_eq s.attached s.currentPoint hbasic.head
    have hcurn : s.currentPoint < n := hbasic.mem_lt _ hcur
    obtain ⟨q, hqn, hqa⟩ :=
      exists_unattached n s.attached hbasic.nodup hbasic.mem_lt (by omega)
    have hqc : q ≠ s.currentPoint := fun he => hqa (he ▸ hcur)
    obtain ⟨p, hp⟩ : ∃ p,
        (mstScan d cd n s.attached s.currentPoint s.nd s.nbr).bestPoint = some p := by
      cases hbp : (mstScan d cd n s.attached s.currentPoint s.nd s.nbr).bestPoint with
      | none => exact absurd (spec.none_spec hbp).2 (fun hall => hqc (hall q hqn hqa))
      | some p => exact ⟨p, rfl⟩
    obtain ⟨hpn, hpa, hpc, hbd⟩ := spec.some_spec p hp
    have hcand : ∀ x, x < n → x ∉ s.attached →
        (mstScan d cd n s.attached s.currentPoint s.nd s.nbr).nd x =
            mrd d cd ((mstScan d cd n s.attached s.currentPoint s.nd s.nbr).nbr x) x ∧
          (mstScan d cd n s.attached s.currentPoint s.nd s.nbr).nbr x ∈ s.attached := by
      intro x hxn hxa
      have hxc : x ≠ s.currentPoint := fun he => hxa (he ▸ hcur)
      rcases spec.upd x hxn hxa hxc with ⟨he1, he2, he3⟩ | ⟨he1, he2⟩
      · rcases hinv.unatt x hxn hxa with hd | ⟨hw, hmem⟩
        · exact absurd (lt_of_le_of_lt (hd ▸ he3) (hm _ _ hcurn hxn)) (lt_irrefl _)
        · rw [he1, he2]
          exact ⟨hw, hmem⟩
      · rw [he1, he2]
        exact ⟨rfl, hcur⟩
    have hatt_frozen : ∀ x ∈ s.attached,
        (mstScan d cd n s.attached s.currentPoint s.nd s.nbr).nbr x = s.nbr x ∧
          (mstScan d cd n s.attached s.currentPoint s.nd s.nbr).nd x = s.nd x := by
      intro x hx
      obtain ⟨h1, h2⟩ := spec.unchanged x (Or.inr (Or.inl hx))
      exact ⟨h2, h1⟩
    have hinv' : LoopInvStrong d cd n
        { attached := p :: s.attached, currentPoint := p,
          nd := (mstScan d cd n s.attached s.currentPoint s.nd s.nbr).nd,
          nbr := (mstScan d cd n s.attached s.currentPoint s.nd s.nbr).nbr } := by
      refine ⟨⟨rfl, List.nodup_cons.2 ⟨hpa, hbasic.nodup⟩, ?_, ?_⟩, ?_, ?_, ?_⟩
      · intro x hx
        rcases List.mem_cons.1 hx with rfl | hx2
        · exact hpn
        · exact hbasic.mem_lt x hx2
      · intro x
        exact le_trans (spec.nd_le x) (hbasic.nd_le x)
      · rw [List.getLast?_cons]
        have hne := head_mem_of_head?_eq s.attached s.currentPoint hbasic.head
        have hl : s.attached.getLast? = some (n - 1) := hinv.last
        rw [hl]
        rfl
      · obtain ⟨hw, hmem⟩ := hcand p hpn hpa
        exact AttChain.cons p s.attached hmem hw
          (hinv.chain.congr fun x hx => hatt_frozen x hx)
      · intro x hxn hxa
        have hxa2 : x ∉ s.attached := fun hx2 => hxa (List.mem_cons_of_mem p hx2)
        obtain ⟨hw, hmem⟩ := hcand x hxn hxa2
        exact Or.inr ⟨hw, List.mem_cons_of_mem p hmem⟩
    obtain ⟨s', hloop, hinv'', hlen''⟩ := mstLoop_strong d cd n hm r
      { attached := p :: s.attached, currentPoint := p,
        nd := (mstScan d cd n s.attached s.currentPoint s.nd s.nbr).nd,
        nbr := (mstScan d cd n s.attached s.currentPoint s.nd s.nbr).nbr }
      hinv' (by simp; omega)
    refine ⟨s', ?_, hinv'', hlen''⟩
    simp only [mstLoop, hp, hloop, Option.map_some']

theorem constructMstAux_spec (d : Nat → Nat → ℚ) (cd : Nat → ℚ) (n : Nat)
    (h2 : 2 ≤ n) (hm : ∀ a b, a < n → b < n → mrd d cd a b < dblMax) :
    ∃ s, mstLoop d cd n (n - 1) (mstInitState n) = some (s, n - 1) ∧
      (∀ i, i < n - 1 → s.nd i = mrd d cd (s.nbr i) i) ∧
      (∀ v, v < n → Relation.ReflTransGen
        (fun u w => u < n - 1 ∧ w = s.nbr u) v (n - 1)) := by
  have hinv : LoopInvStrong d cd n (mstInitState n) := by
    refine ⟨⟨rfl, List.nodup_singleton _, ?_, fun q => le_refl _⟩, rfl,
      AttChain.single _, fun q hq hqa => Or.inl rfl⟩
    intro p hp
    have hpe : p = n - 1 := by simpa [mstInitState] using hp
    omega
  obtain ⟨s, hloop, hinv', hlen⟩ := mstLoop_strong d cd n hm (n - 1)
    (mstInitState n) hinv (by simp [mstInitState]; omega)
  have hall : ∀ p, p < n → p ∈ s.attached :=
    all_mem_of_nodup_length s.attached n hinv'.basic.nodup hinv'.basic.mem_lt hlen
  refine ⟨s, hloop, ?_, ?_⟩
  · intro i hi
    exact hinv'.chain.weight (n - 1) hinv'.last i (hall i (by omega)) (by omega)
  · intro v hv
    refine hinv'.chain.reach _ hinv'.basic.nodup (n - 1) hinv'.last ?_ v (hall v hv)
    intro p hp hpr
    have hpn : p < n := hinv'.basic.mem_lt p hp
    exact ⟨by omega, rfl⟩

/-- C10: for `N ≥ 2` points, every iteration of the MST attachment loop
selects an unattached point (the embedded selection is never `none`, so
`nearestMRDPoint` is never `-1` where the source indexes the bitset and
the arrays with it), the loop runs exactly `N − 1` iterations (the second
component of the loop result), and `constructMst` returns a graph. -/
theorem constructMst_terminates (distances : List (List ℚ))
    (coreDistances : List ℚ) (selfEdges : Bool) (h2 : 2 ≤ distances.length) :
    (∃ s, mstLoop (dOf distances) (cdOf coreDistances) distances.length
          (distances.length - 1) (mstInitState distances.length) =
        some (s, distances.length - 1)) ∧
      ∃ g, constructMst distances coreDistances selfEdges = some g := by
  have hinv : LoopInv distances.length (mstInitState distances.length) := by
    refine ⟨rfl, List.nodup_singleton _, ?_, fun q => le_refl _⟩
    intro p hp
    have hpe : p = distances.length - 1 := by simpa [mstInitState] using hp
    omega
  obtain ⟨s', hloop, _, _⟩ := mstLoop_basic (dOf distances) (cdOf coreDistances)
    distances.length (distances.length - 1) (mstInitState distances.length) hinv
    (by simp [mstInitState]; omega)
  refine ⟨⟨s', hloop⟩, ?_⟩
  have hsome : (constructMst distances coreDistances selfEdges).isSome := by
    simp only [constructMst, hloop, Option.map_some', Option.isSome_some]
  exact Option.isSome_iff_exists.1 hsome

/-- C10 witness: a concrete 2-point instance. -/
theorem constructMst_terminates_witness :
    (∃ s, mstLoop (dOf [[0, 2], [2, 0]]) (cdOf [0, 0])
          ([[ (0:ℚ), 2], [2, 0]] : List (List ℚ)).length
          (([[ (0:ℚ), 2], [2, 0]] : List (List ℚ)).length - 1)
          (mstInitState ([[ (0:ℚ), 2], [2, 0]] : List (List ℚ)).length) =
        some (s, ([[ (0:ℚ), 2], [2, 0]] : List (List ℚ)).length - 1)) ∧
      ∃ g, constructMst [[0, 2], [2, 0]] [0, 0] true = some g :=
  constructMst_terminates [[0, 2], [2, 0]] [0, 0] true (by decide)

/-- C4: for `N ≥ 2` points whose mutual reachability distances are below
`DBL_MAX`, `constructMst` returns a graph with exactly `N − 1` tree edges
(plus `N` self edges, one per point with weight equal to that point's own
core distance, when the flag is set), the `i`-th tree edge joins the
recorded neighbor to vertex `i` with weight equal to the mutual
reachability distance of its two endpoints, and the tree edges connect
every point to the root `N − 1`. -/
theorem constructMst_spec (distances : List (List ℚ)) (coreDistances : List ℚ)
    (selfEdges : Bool) (h2 : 2 ≤ distances.length)
    (hm : ∀ a b, a < distances.length → b < distances.length →
      mrd (dOf distances) (cdOf coreDistances) a b < dblMax) :
    ∃ g, constructMst distances coreDistances selfEdges = some g ∧
      g.verticesA.length =
        distances.length - 1 + (if selfEdges then distances.length else 0) ∧
      g.verticesB.length =
        distances.length - 1 + (if selfEdges then distances.length else 0) ∧
      g.edgeWeights.length =
        distances.length - 1 + (if selfEdges then distances.length else 0) ∧
      (∀ i, i < distances.length - 1 →
        g.verticesB.getD i 0 = i ∧
          g.edgeWeights.getD i 0 =
            mrd (dOf distances) (cdOf coreDistances) (g.verticesA.getD i 0)
              (g.verticesB.getD i 0)) ∧
      (∀ i, distances.length - 1 ≤ i →
        i < distances.length - 1 + (if selfEdges then distances.length else 0) →
        g.verticesA.getD i 0 = i - (distances.length - 1) ∧
          g.verticesB.getD i 0 = i - (distances.length - 1) ∧
          g.edgeWeights.getD i 0 =
            cdOf coreDistances (i - (distances.length - 1))) ∧
      (∀ v, v < distances.length →
        Relation.ReflTransGen (UndirectedGraph.AdjUpTo g (distances.length - 1)) v
          (distances.length - 1)) := by
  obtain ⟨s, hloop, hweights, hreach⟩ := constructMstAux_spec (dOf distances)
    (cdOf coreDistances) distances.length h2 hm
  have hcons : constructMst distances coreDistances selfEdges =
      some { numVertices := distances.length
             verticesA := (List.range (distances.length - 1)).map s.nbr ++
               (if selfEdges then List.range distances.length else [])
             verticesB := List.range (distances.length - 1) ++
               (if selfEdges then List.range distances.length else [])
             edgeWeights := (List.range (distances.length - 1)).map s.nd ++
               (if selfEdges then
                 (List.range distances.length).map (cdOf coreDistances) else []) } := by
    simp only [constructMst, hloop, Option.map_some']
  have hlenif : (if selfEdges then List.range distances.length else []).length =
      (if selfEdges then distances.length else 0) := by
    cases selfEdges <;> simp
  have hlenifm : ((if selfEdges then
      (List.range distances.length).map (cdOf coreDistances) else [])).length =
      (if selfEdges then distances.length else 0) := by
    cases selfEdges <;> simp
  have hA : ∀ i, i < distances.length - 1 →
      ((List.range (distances.length - 1)).map s.nbr ++
        (if selfEdges then List.range distances.length else [])).getD i 0 = s.nbr i := by
    intro i hi
    rw [List.getD_append _ _ _ i (by simpa using hi),
      List.getD_eq_getElem _ _ (by simpa using hi), List.getElem_map,
      List.getElem_range]
  have hB : ∀ i, i < distances.length - 1 →
      (List.range (distances.length - 1) ++
        (if selfEdges then List.range distances.length else [])).getD i 0 = i := by
    intro i hi
    rw [List.getD_append _ _ _ i (by simpa using hi),
      List.getD_eq_getElem _ _ (by simpa using hi), List.getElem_range]
  have hW : ∀ i, i < distances.length - 1 →
      ((List.range (distances.length - 1)).map s.nd ++
        (if selfEdges then
          (List.range distances.length).map (cdOf coreDistances) else [])).getD i 0 =
        s.nd i := by
    intro i hi
    rw [List.getD_append _ _ _ i (by simpa using hi),
      List.getD_eq_getElem _ _ (by simpa using hi), List.getElem_map,
      List.getElem_range]
  refine ⟨_, hcons, ?_, ?_, ?_, ?_, ?_, ?_⟩
  · simp [hlenif]
  · simp [hlenif]
  · simp [hlenifm]
  · intro i hi
    refine ⟨hB i hi, ?_⟩
    rw [hA i hi, hB i hi, hW i hi]
    exact hweights i hi
  · intro i hi1 hi2
    have hse : selfEdges = true := by
      cases selfEdges
      · simp only [Bool.false_eq_true, if_false] at hi2
        omega
      · rfl
    subst hse
    simp only [eq_self_iff_true, if_true] at hi2 ⊢
    have hb : i - (distances.length - 1) < distances.length := by omega
    refine ⟨?_, ?_, ?_⟩
    · rw [List.getD_append_right _ _ _ i (by simpa using hi1),
        List.length_map, List.length_range]
      rw [List.getD_eq_getElem _ _ (by simpa using hb), List.getElem_range]
    · rw [List.getD_append_right _ _ _ i (by simpa using hi1),
        List.length_range]
      rw [List.getD_eq_getElem _ _ (by simpa using hb), List.getElem_range]
    · rw [List.getD_append_right _ _ _ i (by simpa using hi1),
        List.length_map, List.length_range]
      rw [List.getD_eq_getElem _ _ (by simpa using hb), List.getElem_map,
        List.getElem_range]
  · intro v hv
    refine Relation.ReflTransGen.mono ?_ (hreach v hv)
    intro u w hu
    obtain ⟨hun, hw⟩ := hu
    refine ⟨u, hun, Or.inr ⟨?_, ?_⟩⟩
    · rw [hA u hun, hw]
    · exact hB u hun

/-- C5 counterexample: the claim states that on equal smallest recorded
distances the first (lowest) scanned index wins.  Concrete 3-point
instance: all pairwise distances 1, zero core distances, root 2.  In the
first scan both unattached candidates 0 and 1 carry the equal smallest
recorded distance, yet point 1 — not the lowest index 0 — is selected
(the source compares with `<=`, so a later tie overwrites), and the full
run attaches 1 before 0 (the attachment list, most recent first, is
`[0, 1, 2]`). -/
theorem mstScan_tiebreak_cex :
    (mstScan (dOf exTieMatrix) (cdOf exTieCore) 3 [2] 2 (fun _ => dblMax)
        (fun _ => 0)).bestPoint = some 1 ∧
      (mstScan (dOf exTieMatrix) (cdOf exTieCore) 3 [2] 2 (fun _ => dblMax)
          (fun _ => 0)).nd 0 =
        (mstScan (dOf exTieMatrix) (cdOf exTieCore) 3 [2] 2 (fun _ => dblMax)
            (fun _ => 0)).nd 1 ∧
      (mstScan (dOf exTieMatrix) (cdOf exTieCore) 3 [2] 2 (fun _ => dblMax)
          (fun _ => 0)).bestDist =
        (mstScan (dOf exTieMatrix) (cdOf exTieCore) 3 [2] 2 (fun _ => dblMax)
            (fun _ => 0)).nd 0 ∧
      (0 : Nat) ∉ ([2] : List Nat) ∧ (1 : Nat) ∉ ([2] : List Nat) ∧
      (0 : Nat) < 1 ∧
      ((mstLoop (dOf exTieMatrix) (cdOf exTieCore) 3 2 (mstInitState 3)).map
          (fun x => x.1.attached)) = some [0, 1, 2] := by
  refine ⟨by decide, by decide, by decide, by decide, by decide, by decide,
    by decide⟩

/-- C5 amended: when two unattached candidate points carry equal smallest
recorded mutual reachability distances at the moment of selection, the
point with the **last (highest)** index encountered during the scan is the
one selected for attachment: the source's `<=` comparison lets every later
tie displace an earlier one, so the selected point is at least the higher
tied index (in particular it is never the lower one). -/
theorem mstScan_tiebreak_last (d : Nat → Nat → ℚ) (cd : Nat → ℚ) (n : Nat)
    (attached : List Nat) (current : Nat) (nd₀ : Nat → ℚ) (nbr₀ : Nat → Nat)
    (hnd₀ : ∀ q, nd₀ q ≤ dblMax) (hcur : current ∈ attached)
    (i j : Nat) (hij : i < j) (hjn : j < n)
    (hia : i ∉ attached) (hja : j ∉ attached)
    (htie : (mstScan d cd n attached current nd₀ nbr₀).nd i =
      (mstScan d cd n attached current nd₀ nbr₀).nd j)
    (hmin : (mstScan d cd n attached current nd₀ nbr₀).bestDist =
      (mstScan d cd n attached current nd₀ nbr₀).nd i) :
    ∃ p, (mstScan d cd n attached current nd₀ nbr₀).bestPoint = some p ∧
      j ≤ p ∧ i ≠ p := by
  have spec := mstScan_spec' d cd n attached current nd₀ nbr₀ hnd₀
  have hjc : j ≠ current := fun he => hja (he ▸ hcur)
  obtain ⟨p, hp, hjp⟩ := spec.max_spec j hjn hja hjc (by rw [← htie, ← hmin])
  exact ⟨p, hp, hjp, by omega⟩

/-- C5 amended witness: in the concrete 3-point tie instance the selected
point is at least index 1 and is not the lower tied index 0. -/
theorem mstScan_tiebreak_last_witness :
    ∃ p, (mstScan (dOf exTieMatrix) (cdOf exTieCore) 3 [2] 2 (fun _ => dblMax)
        (fun _ => 0)).bestPoint = some p ∧ 1 ≤ p ∧ 0 ≠ p :=
  mstScan_tiebreak_last (dOf exTieMatrix) (cdOf exTieCore) 3 [2] 2
    (fun _ => dblMax) (fun _ => 0) (fun q => le_refl _) (by decide) 0 1
    (by decide) (by decide) (by decide) (by decide) (by decide) (by decide)

/-- C4 witness: a concrete 2-point instance with self edges. -/
theorem constructMst_spec_witness :
    ∃ g, constructMst [[0, 3], [3, 0]] [1, 1] true = some g ∧
      g.verticesA.length = ([[ (0:ℚ), 3], [3, 0]] : List (List ℚ)).length - 1 +
        (if true then ([[ (0:ℚ), 3], [3, 0]] : List (List ℚ)).length else 0) ∧
      g.verticesB.length = ([[ (0:ℚ), 3], [3, 0]] : List (List ℚ)).length - 1 +
        (if true then ([[ (0:ℚ), 3], [3, 0]] : List (List ℚ)).length else 0) ∧
      g.edgeWeights.length = ([[ (0:ℚ), 3], [3, 0]] : List (List ℚ)).length - 1 +
        (if true then ([[ (0:ℚ), 3], [3, 0]] : List (List ℚ)).length else 0) ∧
      (∀ i, i < ([[ (0:ℚ), 3], [3, 0]] : List (List ℚ)).length - 1 →
        g.verticesB.getD i 0 = i ∧
          g.edgeWeights.getD i 0 =
            mrd (dOf [[0, 3], [3, 0]]) (cdOf [1, 1]) (g.verticesA.getD i 0)
              (g.verticesB.getD i 0)) ∧
      (∀ i, ([[ (0:ℚ), 3], [3, 0]] : List (List ℚ)).length - 1 ≤ i →
        i < ([[ (0:ℚ), 3], [3, 0]] : List (List ℚ)).length - 1 +
          (if true then ([[ (0:ℚ), 3], [3, 0]] : List (List ℚ)).length else 0) →
        g.verticesA.getD i 0 = i - (([[ (0:ℚ), 3], [3, 0]] : List (List ℚ)).length - 1) ∧
          g.verticesB.getD i 0 = i - (([[ (0:ℚ), 3], [3, 0]] : List (List ℚ)).length - 1) ∧
          g.edgeWeights.getD i 0 =
            cdOf [1, 1] (i - (([[ (0:ℚ), 3], [3, 0]] : List (List ℚ)).length - 1))) ∧
      (∀ v, v < ([[ (0:ℚ), 3], [3, 0]] : List (List ℚ)).length →
        Relation.ReflTransGen
          (UndirectedGraph.AdjUpTo g (([[ (0:ℚ), 3], [3, 0]] : List (List ℚ)).length - 1))
          v (([[ (0:ℚ), 3], [3, 0]] : List (List ℚ)).length - 1)) :=
  constructMst_spec [[0, 3], [3, 0]] [1, 1] true (by decide)
    (by
      intro a b ha hb
      have ha2 : a < 2 := by simpa using ha
      have hb2 : b < 2 := by simpa using hb
      interval_cases a <;> interval_cases b <;> decide)
